import Mathlib

/-!
Shallow embedding of the keyword-trie (Aho-Corasick style) engine of the
repository.  The primary translation target is the header that defines
`miscco::keyword_trie` (a trie with failure and output links, breadth-first
link construction, and a single-pass text scanner); the older
`keywordTrie::basic_trie` variant is embedded separately where a claim
refers to it (runtime case-sensitivity switching).

Characters are modelled as natural numbers (byte values), strings as
`List Nat`.  Node pointers are modelled as indices into the node arena
(`trieNodes`), mirroring the C++ vector of owned nodes; the root is index 0.
C++ loops over pointer chains are given explicit fuel; well-formed tries
(the only ones the theorems talk about) never exhaust it.
-/

namespace miscco

/-- `std::tolower` in the C locale: fold ASCII upper case to lower case. -/
def tolower (c : Nat) : Nat :=
  if 65 ≤ c ∧ c ≤ 90 then c + 32 else c

/-- Convert a Lean string literal to the byte-list representation. -/
def syms (s : String) : List Nat :=
  s.toList.map Char.toNat

/-- The two error kinds the engine can raise (both are `std::runtime_error`
in the C++ source; we distinguish the two throw sites). -/
inductive Err where
  | DuplicateKeyword : Err
  | InvalidState : Err
deriving Repr, DecidableEq

/-- The `Result` struct: a match record.  `start`/`endPos` are `std::size_t`
(64-bit); the subtraction in the match constructor is performed modulo
`2 ^ 64` exactly as `size_t` arithmetic does. -/
structure Result where
  keyword : List Nat
  id : Nat
  start : Nat := 0
  endPos : Nat := 0
deriving Repr, DecidableEq

/-- The match-record constructor `Result(res, endPos)`:
`start = endPos - keyword.size() + 1` in `size_t` arithmetic. -/
def mkResult (res : Result) (endPos : Nat) : Result :=
  { keyword := res.keyword, id := res.id,
    start := (((endPos : Int) - (res.keyword.length : Int) + 1).emod (2 ^ 64)).toNat,
    endPos := endPos }

/-- The `Node` struct.  `id = -1` marks a non-terminal node (C++ `int`);
`parent`, `failure`, `output` and the `children` entries are arena indices. -/
structure Node where
  id : Int := -1
  depth : Nat := 0
  c : Nat := 0
  parent : Nat := 0
  failure : Nat := 0
  output : Nat := 0
  children : List Nat := []
deriving Repr, DecidableEq

/-- The trie.  `caseSensitive` models the `CaseSensitive` template parameter
(fixed at construction).  A freshly constructed trie holds only the root
node, whose parent/failure/output all point to itself (index 0). -/
structure keyword_trie where
  caseSensitive : Bool := true
  trieNodes : List Node := [{}]
  keywords : List Result := []
deriving Repr, DecidableEq

/-- Read a node of the arena (out-of-range reads yield a default node;
well-formed tries never perform them). -/
def getNode (t : keyword_trie) (i : Nat) : Node :=
  t.trieNodes.getD i {}

/-- Replace node `i` of the arena by `f` applied to it. -/
def setNode (t : keyword_trie) (i : Nat) (f : Node → Node) : keyword_trie :=
  { t with trieNodes := t.trieNodes.set i (f (getNode t i)) }

/-- The per-symbol case folding done by `keyword_trie`:
`CaseSensitive ? character : std::tolower(character)`. -/
def fold (t : keyword_trie) (c : Nat) : Nat :=
  if t.caseSensitive then c else tolower c

/-- The node `addChild` constructs on a miss:
`Node(current->depth + 1, character, current, root)`. -/
def newNode (t : keyword_trie) (current : Nat) (character : Nat) : Node :=
  { id := -1, depth := (getNode t current).depth + 1, c := character,
    parent := current, failure := 0, output := 0, children := [] }

/-- `addChild`: return the existing child of `current` labelled `character`,
or append a fresh node to the arena and to `current`'s child list. -/
def addChild (t : keyword_trie) (current : Nat) (character : Nat) :
    keyword_trie × Nat :=
  match (getNode t current).children.find? (fun j => (getNode t j).c = character) with
  | some j => (t, j)
  | none =>
    let newIdx := t.trieNodes.length
    let t1 : keyword_trie := { t with trieNodes := t.trieNodes ++ [newNode t current character] }
    (setNode t1 current (fun n => { n with children := n.children ++ [newIdx] }), newIdx)

/-- The output-link computation inside `addFailureLinks`:
`out = temp->failure; while (out != root) { if (out->id != -1) break; out = out->failure; }`. -/
def walkOut (t : keyword_trie) : Nat → Nat → Nat
  | 0, i => i
  | f + 1, i =>
    if i = 0 then 0
    else if (getNode t i).id ≠ -1 then i
    else walkOut t f (getNode t i).failure

/-- The failure-link rescan inside `addFailureLinks`: iterate over the
children of the parent's failure node, assigning on every character match
(the C++ loop has no `break`, so the last match wins). -/
def scanChildren (t : keyword_trie) (js : List Nat) (character : Nat) : Option Nat :=
  js.foldl (fun acc j => if (getNode t j).c = character then some j else acc) none

/-- One dequeue step of the breadth-first pass of `addFailureLinks`:
conditionally update `temp->failure`, then recompute `temp->output`. -/
def bfsStep (t : keyword_trie) (n : Nat) : keyword_trie :=
  let nd := getNode t n
  let t1 :=
    if ((getNode t nd.failure).depth : Int) < (nd.depth : Int) - 1 then
      match scanChildren t (getNode t (getNode t nd.parent).failure).children nd.c with
      | some j => setNode t n (fun m => { m with failure := j })
      | none => t
    else t
  let out := walkOut t1 t1.trieNodes.length (getNode t1 n).failure
  setNode t1 n (fun m => { m with output := out })

/-- The breadth-first queue loop of `addFailureLinks`.  The children of the
dequeued node are enqueued before its links are updated (the update never
changes child lists, so reading them before the step mirrors the source). -/
def bfsLoop (t : keyword_trie) : Nat → List Nat → keyword_trie
  | 0, _ => t
  | _, [] => t
  | f + 1, n :: rest => bfsLoop (bfsStep t n) f (rest ++ (getNode t n).children)

/-- `addFailureLinks`: breadth-first search from the root.  Every node is
enqueued exactly once (each non-root node is the child of a unique parent),
so `trieNodes.length` dequeues are enough fuel. -/
def addFailureLinks (t : keyword_trie) : keyword_trie :=
  bfsLoop t t.trieNodes.length [0]

/-- `addString(key, addFailure)`: insert one keyword.  The returned pair is
(thrown error if any, state of the trie when the call exits); a throwing
call leaves the trie exactly as the mutations performed so far left it. -/
def addString (t : keyword_trie) (key : List Nat) (addFailure : Bool) :
    Option Err × keyword_trie :=
  if key = [] then (none, t)
  else
    let walk := key.foldl (fun (p : keyword_trie × Nat) ch =>
      addChild p.1 p.2 (fold p.1 ch)) (t, 0)
    let t1 := walk.1
    let current := walk.2
    if (getNode t1 current).id ≠ -1 then (some Err.DuplicateKeyword, t1)
    else
      let t2 := setNode t1 current (fun n => { n with id := (t1.keywords.length : Int) })
      let t3 := { t2 with keywords := t2.keywords ++
        [{ keyword := key, id := t2.keywords.length }] }
      if addFailure then (none, addFailureLinks t3) else (none, t3)

/-- Strict lexicographic order on byte strings, the order `std::string`'s
`operator<` induces and hence the iteration order of `std::set<std::string>`. -/
def lexLt : List Nat → List Nat → Bool
  | [], [] => false
  | [], _ :: _ => true
  | _ :: _, [] => false
  | x :: xs, y :: ys => if x < y then true else if y < x then false else lexLt xs ys

/-- Ordered insertion without duplicates: the effect of `std::set::insert`. -/
def setInsert (l : List (List Nat)) (k : List Nat) : List (List Nat) :=
  match l with
  | [] => [k]
  | x :: xs =>
    if lexLt k x then k :: x :: xs
    else if lexLt x k then x :: setInsert xs k
    else x :: xs

/-- The sorted duplicate-free sequence a `std::set<std::string>` built from
the given elements iterates over. -/
def setOfList (l : List (List Nat)) : List (List Nat) :=
  l.foldl setInsert []

/-- Insert each key with `addFailure = false`, aborting at the first
exception (whose partially mutated state propagates to the caller). -/
def addStringsLoop (t : keyword_trie) : List (List Nat) → Option Err × keyword_trie
  | [] => (none, t)
  | k :: ks =>
    match addString t k false with
    | (some e, t') => (some e, t')
    | (none, t') => addStringsLoop t' ks

/-- The `addString(const std::set<std::string>&)` overload: insert the keys
in the set's sorted iteration order, then run one link pass. -/
def addStringSet (t : keyword_trie) (keys : List (List Nat)) :
    Option Err × keyword_trie :=
  match addStringsLoop t (setOfList keys) with
  | (some e, t') => (some e, t')
  | (none, t') => (none, addFailureLinks t')

/-- The `addString(const std::vector<std::string>&)` overload: insert the
keys in the given order, then run one link pass. -/
def addStringVec (t : keyword_trie) (keys : List (List Nat)) :
    Option Err × keyword_trie :=
  match addStringsLoop t keys with
  | (some e, t') => (some e, t')
  | (none, t') => (none, addFailureLinks t')

/-- The failure-chain walk of `traverseFail`, given explicit fuel:
`while (temp != root) { scan temp's children, first match returns; temp = temp->failure; }`
followed by the scan of the root's children. -/
def failSearch (t : keyword_trie) (character : Nat) : Nat → Nat → Nat
  | 0, _ =>
    match (getNode t 0).children.find? (fun j => (getNode t j).c = character) with
    | some j => j
    | none => 0
  | f + 1, i =>
    if i = 0 then
      match (getNode t 0).children.find? (fun j => (getNode t j).c = character) with
      | some j => j
      | none => 0
    else
      match (getNode t i).children.find? (fun j => (getNode t j).c = character) with
      | some j => j
      | none => failSearch t character f (getNode t i).failure

/-- `traverseFail(current, character)`. -/
def traverseFail (t : keyword_trie) (current : Nat) (character : Nat) : Nat :=
  failSearch t character t.trieNodes.length (getNode t current).failure

/-- `findChild(current, character)` (scan-time, no node creation). -/
def findChild (t : keyword_trie) (current : Nat) (character : Nat) : Nat :=
  match (getNode t current).children.find? (fun j => (getNode t j).c = character) with
  | some j => j
  | none => traverseFail t current character

/-- The output-chain emission of `parseText`:
`temp = current->output; while (temp != root) { emit keywords.at(temp->id); temp = temp->output; }`. -/
def outputChain (t : keyword_trie) (i : Nat) : Nat → Nat → List Result
  | 0, _ => []
  | f + 1, temp =>
    if temp = 0 then []
    else
      mkResult (t.keywords.getD ((getNode t temp).id.toNat) { keyword := [], id := 0 }) i ::
        outputChain t i f (getNode t temp).output

/-- The scanning loop of `parseText` over the remaining text, carrying the
current state and the 0-based position of the next symbol. -/
def parseLoop (t : keyword_trie) : List Nat → Nat → Nat → List Result
  | [], _, _ => []
  | ch :: rest, current, i =>
    let cur' := findChild t current (fold t ch)
    let direct :=
      if (getNode t cur').id ≠ -1 then
        [mkResult (t.keywords.getD ((getNode t cur').id.toNat) { keyword := [], id := 0 }) i]
      else []
    direct ++ outputChain t i t.trieNodes.length (getNode t cur').output ++
      parseLoop t rest cur' (i + 1)

/-- `parseText(text)`: single left-to-right scan emitting all matches. -/
def parseText (t : keyword_trie) (text : List Nat) : List Result :=
  if text = [] then [] else parseLoop t text 0 0

/-! ### Derived observers of the trie structure (used to state properties) -/

/-- Follow existing child edges from node `i` along the given symbols. -/
def lookupPath (t : keyword_trie) : List Nat → Nat → Option Nat
  | [], i => some i
  | ch :: rest, i =>
    match (getNode t i).children.find? (fun j => (getNode t j).c = ch) with
    | some j => lookupPath t rest j
    | none => none

/-- The node (if any) whose root path spells the given symbol sequence. -/
def lookup (t : keyword_trie) (p : List Nat) : Option Nat :=
  lookupPath t p 0

/-- The symbols on the root path to node `i`, read off the parent chain
(fuel is the node's depth, which bounds the chain in well-formed tries). -/
def pathAux (t : keyword_trie) : Nat → Nat → List Nat
  | 0, _ => []
  | f + 1, i => if i = 0 then [] else pathAux t f (getNode t i).parent ++ [(getNode t i).c]

/-- The root path of node `i`. -/
def path (t : keyword_trie) (i : Nat) : List Nat :=
  pathAux t (getNode t i).depth i

/-- First entry of a suffix list that exists as a trie path. -/
def firstExisting (t : keyword_trie) : List (List Nat) → Option Nat
  | [] => none
  | s :: rest =>
    match lookup t s with
    | some j => some j
    | none => firstExisting t rest

/-- Modelled from the spec: `failure(N)` "denotes the node whose path is the
longest proper suffix of N's path that also exists as a path from the root".
The proper suffixes of the path are tried from longest to shortest; the
empty suffix always exists (the root). -/
def specFailure (t : keyword_trie) (i : Nat) : Option Nat :=
  firstExisting t ((path t i).tails.drop 1)

/-- Iterate the failure link `k` times from node `i`. -/
def failIter (t : keyword_trie) : Nat → Nat → Nat
  | 0, i => i
  | k + 1, i => failIter t k (getNode t i).failure

/-- The trie walk performed by `addString` after case folding: follow (or
create) one child edge per symbol. -/
def walkAdd (t : keyword_trie) (cur : Nat) (l : List Nat) : keyword_trie × Nat :=
  l.foldl (fun p ch => addChild p.1 p.2 ch) (t, cur)

end miscco

namespace keywordTrie

/-- The older `basic_trie` (runtime case-sensitivity flag) holds exactly the
same state as `keyword_trie`: a node arena rooted at index 0, the keyword
list, and the flag; only its member functions differ. -/
abbrev basic_trie := miscco.keyword_trie

open miscco (getNode setNode tolower Err Node Result)

/-- `basic_trie::addChild`: unconditionally append a fresh node. -/
def addChild (t : basic_trie) (parent : Nat) (character : Nat) :
    basic_trie × Nat :=
  let newIdx := t.trieNodes.length
  let t1 : basic_trie :=
    { t with trieNodes := t.trieNodes ++
        [{ id := -1, depth := (getNode t parent).depth + 1, c := character,
           parent := parent, failure := 0, output := 0, children := [] }] }
  (setNode t1 parent (fun n => { n with children := n.children ++ [newIdx] }), newIdx)

/-- `basic_trie::traverseFail`: walk the failure chain scanning children with
a raw (unfolded) comparison; if the root is reached, return it (the root's
own children are not scanned in this variant). -/
def traverseFail (t : basic_trie) (character : Nat) : Nat → Nat → Nat
  | 0, temp => temp
  | f + 1, temp =>
    if temp = 0 then temp
    else
      match (getNode t temp).children.find? (fun j => (getNode t j).c = character) with
      | some j => j
      | none => traverseFail t character f (getNode t temp).failure

/-- `basic_trie::findChild(current, character, addWord)`: scan the children
with case folding applied inside the comparison when insensitive; on a miss
either create the child (folded when insensitive) or fall back through the
failure links. -/
def findChild (t : basic_trie) (current : Nat) (character : Nat) (addWord : Bool) :
    basic_trie × Nat :=
  match (getNode t current).children.find? (fun j =>
      if t.caseSensitive then (getNode t j).c = character
      else tolower (getNode t j).c = tolower character) with
  | some j => (t, j)
  | none =>
    if addWord then
      if t.caseSensitive then addChild t current character
      else addChild t current (tolower character)
    else (t, traverseFail t character t.trieNodes.length (getNode t current).failure)

/-- `basic_trie::addString(key, addFailure)` (the breadth-first link pass it
optionally triggers is the same algorithm as `keyword_trie`'s). -/
def addString (t : basic_trie) (key : List Nat) (addFailure : Bool) :
    Option Err × basic_trie :=
  if key = [] then (none, t)
  else
    let walk := key.foldl (fun (p : basic_trie × Nat) ch =>
      findChild p.1 p.2 ch true) (t, 0)
    let t1 := walk.1
    let current := walk.2
    if (getNode t1 current).id ≠ -1 then (some Err.DuplicateKeyword, t1)
    else
      let t2 := setNode t1 current (fun n => { n with id := (t1.keywords.length : Int) })
      let t3 := { t2 with keywords := t2.keywords ++
        [{ keyword := key, id := t2.keywords.length }] }
      if addFailure then (none, miscco.addFailureLinks t3) else (none, t3)

/-- `basic_trie::setCaseSensitivity(flag)`: the flag is assigned first; the
call then throws precisely when the new flag is `false` and at least one
keyword has been inserted. -/
def setCaseSensitivity (t : basic_trie) (flag : Bool) :
    Option Err × basic_trie :=
  let t' : basic_trie := { t with caseSensitive := flag }
  if flag = false ∧ t'.keywords ≠ [] then (some Err.InvalidState, t')
  else (none, t')

/-- A `basic_trie` holding the single keyword "her" (inserted without the
link pass, which `setCaseSensitivity` does not look at). -/
def trieHer : basic_trie := (addString {} (miscco.syms "her") false).2

end keywordTrie

namespace miscco

/-! ### Well-formedness invariants and reachable states -/

/-- Structural well-formedness of a trie state: a non-empty arena whose root
is self-linked at depth 0, whose child lists are duplicate-free and point to
deeper, later-allocated nodes consistent with the parent/depth fields, and
whose failure links point to strictly shallower nodes. -/
def WS (t : keyword_trie) : Prop :=
  0 < t.trieNodes.length ∧
  ((getNode t 0).depth = 0 ∧ (getNode t 0).parent = 0 ∧ (getNode t 0).failure = 0 ∧
    (getNode t 0).output = 0 ∧ (getNode t 0).id = -1) ∧
  (∀ i < t.trieNodes.length, (getNode t i).children.Nodup ∧
    ∀ j ∈ (getNode t i).children, j < t.trieNodes.length ∧ i < j ∧
      (getNode t j).parent = i ∧ (getNode t j).depth = (getNode t i).depth + 1) ∧
  (∀ i < t.trieNodes.length, i ≠ 0 →
    (getNode t i).parent < i ∧
    (getNode t i).depth = (getNode t (getNode t i).parent).depth + 1 ∧
    (getNode t i).failure < t.trieNodes.length ∧
    (getNode t (getNode t i).failure).depth < (getNode t i).depth ∧
    (getNode t i).output < t.trieNodes.length)

instance (t : keyword_trie) : Decidable (WS t) := by
  unfold WS
  infer_instance

/-- Output-link and keyword well-formedness, on top of `WS`: every output
link lands on the root or on a keyword-carrying node; every root path of an
output or failure target is a suffix of the node's own root path; and every
keyword identifier stored in a node indexes a keyword whose case-folded
text is exactly the node's root path. -/
def WK (t : keyword_trie) : Prop :=
  (∀ i < t.trieNodes.length,
    ((getNode t i).output = 0 ∨ (getNode t (getNode t i).output).id ≠ -1)) ∧
  (∀ i < t.trieNodes.length, i ≠ 0 →
    path t (getNode t i).failure <:+ path t i ∧
    path t (getNode t i).output <:+ path t i) ∧
  (∀ i < t.trieNodes.length, (getNode t i).id ≠ -1 →
    0 ≤ (getNode t i).id ∧ (getNode t i).id.toNat < t.keywords.length ∧
    ((t.keywords.getD (getNode t i).id.toNat { keyword := [], id := 0 }).keyword.map
        (fold t) = path t i))

/-- The trie states reachable from a freshly constructed automaton through
the public construction interface (single insertions with either flag and
explicit link rebuilds; the batch overloads are compositions of these —
the state after a throwing call is reachable as well, matching C++
exception semantics). -/
inductive Built : keyword_trie → Prop
  | base (cs : Bool) : Built { caseSensitive := cs }
  | insert (key : List Nat) (flag : Bool) {t : keyword_trie} :
      Built t → Built (addString t key flag).2
  | links {t : keyword_trie} : Built t → Built (addFailureLinks t)

/-! ### Concrete tries used by several theorems -/

/-- The trie obtained by inserting the set {"a", "bab"}. -/
def trieAB : keyword_trie := (addStringSet {} [syms "a", syms "bab"]).2

/-- The trie of the README scenario: the set {"hers","his","she","he","her"}. -/
def trieUshers : keyword_trie :=
  (addStringSet {} [syms "hers", syms "his", syms "she", syms "he", syms "her"]).2

/-- Invariant of the breadth-first queue during `addFailureLinks`: depths
are nondecreasing and span at most two consecutive levels, no node is
enqueued twice, the parent of an enqueued non-root node has already been
dequeued, and all entries are valid arena indices. -/
def QI (S : keyword_trie) (q : List Nat) : Prop :=
  List.Pairwise (fun a b => (getNode S a).depth ≤ (getNode S b).depth) q ∧
  (∀ x ∈ q, ∀ y ∈ q, (getNode S y).depth ≤ (getNode S x).depth + 1) ∧
  q.Nodup ∧
  (∀ x ∈ q, x ≠ 0 → (getNode S x).parent ∉ q) ∧
  (∀ x ∈ q, x < S.trieNodes.length)

/-- Keyword-node invariant: every recorded keyword identifier is carried by
some node, and looking up the keyword's case-folded text from the root still
finds that node (the keyword remains "successfully inserted" in the current
state, whatever construction steps followed). -/
def KN (t : keyword_trie) : Prop :=
  ∀ kidx < t.keywords.length, ∃ i, i < t.trieNodes.length ∧
    (getNode t i).id = (kidx : Int) ∧
    lookupPath t
      ((t.keywords.getD kidx { keyword := [], id := 0 }).keyword.map (fold t)) 0
      = some i

/-- A trie built by inserting "her", then "his", then rebuilding links:
a state in which "her" was inserted before intervening operations. -/
def trieHerHis : keyword_trie :=
  addFailureLinks (addString (addString {} (syms "her") false).2 (syms "his") false).2

/-- The trie after one successful insertion of "her" (links built). -/
def trieHerM : keyword_trie := (addString {} (syms "her") true).2

/-- A case-insensitive automaton holding the keyword "Her". -/
def trieHerInsens : keyword_trie :=
  (addString { caseSensitive := false } (syms "Her") true).2

/-! ### Basic lemmas about the state primitives -/

theorem length_setNode (t : keyword_trie) (i : Nat) (f : Node → Node) :
    (setNode t i f).trieNodes.length = t.trieNodes.length := by
  simp [setNode]

theorem keywords_setNode (t : keyword_trie) (i : Nat) (f : Node → Node) :
    (setNode t i f).keywords = t.keywords := rfl

theorem caseSensitive_setNode (t : keyword_trie) (i : Nat) (f : Node → Node) :
    (setNode t i f).caseSensitive = t.caseSensitive := rfl

theorem getNode_lt (t : keyword_trie) (i : Nat) (h : i < t.trieNodes.length) :
    getNode t i = t.trieNodes[i] := by
  unfold getNode
  rw [List.getD_eq_getElem?_getD, List.getElem?_eq_getElem h]
  rfl

theorem getNode_setNode (t : keyword_trie) (i : Nat) (f : Node → Node) (j : Nat) :
    getNode (setNode t i f) j =
      if i = j ∧ i < t.trieNodes.length then f (getNode t i) else getNode t j := by
  unfold getNode setNode
  simp only [List.getD_eq_getElem?_getD, List.getElem?_set]
  by_cases h1 : i = j
  · subst h1
    by_cases h2 : i < t.trieNodes.length
    · simp only [h2, and_true, if_true, ite_true, true_and, and_self,
        List.getElem?_eq_getElem h2, Option.getD_some]
      rw [getNode_lt t i h2]
    · simp only [h2, and_false, if_false]
      rw [List.getElem?_eq_none (by omega)]
      rfl
  · simp [h1]

theorem getNode_setNode_ne (t : keyword_trie) (i : Nat) (f : Node → Node) (j : Nat)
    (h : i ≠ j) : getNode (setNode t i f) j = getNode t j := by
  rw [getNode_setNode]; simp [h]

theorem getNode_setNode_self (t : keyword_trie) (i : Nat) (f : Node → Node)
    (h : i < t.trieNodes.length) : getNode (setNode t i f) i = f (getNode t i) := by
  rw [getNode_setNode]; simp [h]

theorem getNode_push (t : keyword_trie) (nd : Node) (j : Nat) :
    getNode { t with trieNodes := t.trieNodes ++ [nd] } j =
      if j < t.trieNodes.length then getNode t j
      else if j = t.trieNodes.length then nd else {} := by
  unfold getNode
  simp only [List.getD_eq_getElem?_getD, List.getElem?_append]
  by_cases h1 : j < t.trieNodes.length
  · simp [h1]
  · by_cases h2 : j = t.trieNodes.length
    · subst h2; simp
    · have h3 : 1 ≤ j - t.trieNodes.length := by omega
      simp only [h1, if_false]
      rw [List.getElem?_eq_none (by simpa using h3)]
      simp [h1, h2]

/-! ### Characterization of addChild -/

theorem addChild_found (t : keyword_trie) (cur ch j : Nat)
    (hf : (getNode t cur).children.find? (fun j => (getNode t j).c = ch) = some j) :
    addChild t cur ch = (t, j) := by
  unfold addChild; rw [hf]

theorem addChild_new_idx (t : keyword_trie) (cur ch : Nat)
    (hf : (getNode t cur).children.find? (fun j => (getNode t j).c = ch) = none) :
    (addChild t cur ch).2 = t.trieNodes.length := by
  unfold addChild; rw [hf]

theorem addChild_new_len (t : keyword_trie) (cur ch : Nat)
    (hf : (getNode t cur).children.find? (fun j => (getNode t j).c = ch) = none) :
    (addChild t cur ch).1.trieNodes.length = t.trieNodes.length + 1 := by
  unfold addChild; rw [hf]
  simp [setNode]

theorem addChild_new_keywords (t : keyword_trie) (cur ch : Nat)
    (hf : (getNode t cur).children.find? (fun j => (getNode t j).c = ch) = none) :
    (addChild t cur ch).1.keywords = t.keywords := by
  unfold addChild; rw [hf]
  rfl

theorem addChild_new_cs (t : keyword_trie) (cur ch : Nat)
    (hf : (getNode t cur).children.find? (fun j => (getNode t j).c = ch) = none) :
    (addChild t cur ch).1.caseSensitive = t.caseSensitive := by
  unfold addChild; rw [hf]
  rfl

theorem getNode_addChild_new (t : keyword_trie) (cur ch : Nat)
    (hf : (getNode t cur).children.find? (fun j => (getNode t j).c = ch) = none)
    (hc : cur < t.trieNodes.length) (k : Nat) :
    getNode (addChild t cur ch).1 k =
      if k = cur then
        { getNode t cur with children := (getNode t cur).children ++ [t.trieNodes.length] }
      else if k < t.trieNodes.length then getNode t k
      else if k = t.trieNodes.length then newNode t cur ch
      else {} := by
  unfold addChild
  rw [hf]
  simp only
  rw [getNode_setNode]
  by_cases h1 : k = cur
  · subst h1
    rw [if_pos ⟨rfl, by simp only [List.length_append, List.length_singleton]; omega⟩,
      if_pos rfl]
    have hget : getNode { t with trieNodes := t.trieNodes ++ [newNode t k ch] } k
        = getNode t k := by
      rw [getNode_push, if_pos hc]
    rw [hget]
  · rw [if_neg (by intro hh; exact h1 hh.1.symm), if_neg h1, getNode_push]

/-! ### membership facts for the search helpers -/

theorem find?_child_c {t : keyword_trie} {l : List Nat} {ch j : Nat}
    (h : l.find? (fun j => (getNode t j).c = ch) = some j) :
    j ∈ l ∧ (getNode t j).c = ch := by
  refine ⟨List.mem_of_find?_eq_some h, ?_⟩
  have := List.find?_some h
  simpa using this

theorem scanChildrenAux {t : keyword_trie} {ch : Nat} :
    ∀ (js : List Nat) (acc : Option Nat) (j : Nat),
      js.foldl (fun acc j => if (getNode t j).c = ch then some j else acc) acc = some j →
      acc = some j ∨ (j ∈ js ∧ (getNode t j).c = ch) := by
  intro js
  induction js with
  | nil => intro acc j h; exact Or.inl h
  | cons x xs ih =>
    intro acc j h
    simp only [List.foldl_cons] at h
    rcases ih _ j h with h1 | h1
    · by_cases hx : (getNode t x).c = ch
      · rw [if_pos hx] at h1
        right
        obtain rfl : x = j := by injection h1
        exact ⟨List.mem_cons_self _ _, hx⟩
      · rw [if_neg hx] at h1
        exact Or.inl h1
    · exact Or.inr ⟨List.mem_cons_of_mem _ h1.1, h1.2⟩

theorem scanChildren_eq_some {t : keyword_trie} {js : List Nat} {ch j : Nat}
    (h : scanChildren t js ch = some j) : j ∈ js ∧ (getNode t j).c = ch := by
  rcases scanChildrenAux js none j h with h1 | h1
  · cases h1
  · exact h1

/-! ### WS preservation -/

/-- On a miss, `addChild` changes no field of an existing node other than
the current node's child list. -/
theorem fields_addChild_new (t : keyword_trie) (cur ch : Nat)
    (hf : (getNode t cur).children.find? (fun j => (getNode t j).c = ch) = none)
    (hc : cur < t.trieNodes.length) (k : Nat) (hk : k < t.trieNodes.length) :
    (getNode (addChild t cur ch).1 k).depth = (getNode t k).depth ∧
    (getNode (addChild t cur ch).1 k).parent = (getNode t k).parent ∧
    (getNode (addChild t cur ch).1 k).failure = (getNode t k).failure ∧
    (getNode (addChild t cur ch).1 k).output = (getNode t k).output ∧
    (getNode (addChild t cur ch).1 k).id = (getNode t k).id ∧
    (getNode (addChild t cur ch).1 k).c = (getNode t k).c := by
  rw [getNode_addChild_new t cur ch hf hc k]
  by_cases hkc : k = cur
  · subst hkc
    rw [if_pos rfl]
    exact ⟨rfl, rfl, rfl, rfl, rfl, rfl⟩
  · rw [if_neg hkc, if_pos hk]
    exact ⟨rfl, rfl, rfl, rfl, rfl, rfl⟩

theorem WS_addChild (t : keyword_trie) (cur ch : Nat) (hw : WS t)
    (hc : cur < t.trieNodes.length) :
    WS (addChild t cur ch).1 ∧
    (addChild t cur ch).2 < (addChild t cur ch).1.trieNodes.length ∧
    (addChild t cur ch).2 ≠ 0 ∧
    t.trieNodes.length ≤ (addChild t cur ch).1.trieNodes.length ∧
    (getNode (addChild t cur ch).1 (addChild t cur ch).2).depth
      = (getNode t cur).depth + 1 := by
  obtain ⟨hA, hB, hC, hD⟩ := hw
  cases hf : (getNode t cur).children.find? (fun j => (getNode t j).c = ch) with
  | some j =>
    rw [addChild_found t cur ch j hf]
    have hmem := List.mem_of_find?_eq_some hf
    have hj := (hC cur hc).2 j hmem
    exact ⟨⟨hA, hB, hC, hD⟩, hj.1, by omega, le_rfl, hj.2.2.2⟩
  | none =>
    have hg := getNode_addChild_new t cur ch hf hc
    have hflds := fields_addChild_new t cur ch hf hc
    have hlen := addChild_new_len t cur ch hf
    have hidx := addChild_new_idx t cur ch hf
    have hcur0 : cur ≠ t.trieNodes.length := by omega
    have hnew : getNode (addChild t cur ch).1 t.trieNodes.length = newNode t cur ch := by
      rw [hg t.trieNodes.length]
      simp [Ne.symm hcur0]
    refine ⟨⟨?_, ?_, ?_, ?_⟩, ?_, ?_, ?_, ?_⟩
    · rw [hlen]; omega
    · have h0 := hflds 0 hA
      rw [h0.1, h0.2.1, h0.2.2.1, h0.2.2.2.1, h0.2.2.2.2.1]
      exact hB
    · intro i hi
      rw [hlen] at hi
      rw [hg i]
      by_cases hicur : i = cur
      · subst hicur
        simp only [if_pos rfl]
        constructor
        · refine List.Nodup.append ((hC i hc).1) (List.nodup_singleton _) ?_
          intro a ha hb
          have := ((hC i hc).2 a ha).1
          simp only [List.mem_singleton] at hb
          omega
        · intro j hj
          rcases List.mem_append.1 hj with hj1 | hj1
          · have hjold := (hC i hc).2 j hj1
            have hjf := hflds j hjold.1
            rw [hlen]
            refine ⟨by omega, hjold.2.1, ?_, ?_⟩
            · rw [hjf.2.1]; exact hjold.2.2.1
            · rw [hjf.1]
              exact hjold.2.2.2
          · simp only [List.mem_singleton] at hj1
            subst hj1
            rw [hnew, hlen]
            exact ⟨by omega, by omega, rfl, rfl⟩
      · by_cases hilt : i < t.trieNodes.length
        · simp only [if_neg hicur, if_pos hilt]
          refine ⟨(hC i hilt).1, ?_⟩
          intro j hj
          have hjold := (hC i hilt).2 j hj
          have hjf := hflds j hjold.1
          rw [hlen]
          refine ⟨by omega, hjold.2.1, ?_, ?_⟩
          · rw [hjf.2.1]; exact hjold.2.2.1
          · rw [hjf.1]
            exact hjold.2.2.2
        · have hieq : i = t.trieNodes.length := by omega
          subst hieq
          simp only [if_neg hicur, if_neg hilt, if_pos rfl]
          exact ⟨List.nodup_nil, by intro j hj; cases hj⟩
    · intro i hi hi0
      rw [hlen] at hi
      by_cases hilt : i < t.trieNodes.length
      · have hif := hflds i hilt
        have hold := hD i hilt hi0
        have hp := hflds (getNode t i).parent (by omega)
        have hfl := hflds (getNode t i).failure hold.2.2.1
        rw [hif.1, hif.2.1, hif.2.2.1, hif.2.2.2.1, hp.1, hfl.1, hlen]
        exact ⟨hold.1, hold.2.1, by omega, hold.2.2.2.1, by omega⟩
      · have hieq : i = t.trieNodes.length := by omega
        subst hieq
        rw [hnew]
        have hcurf := hflds cur hc
        have h0f := hflds 0 hA
        unfold newNode
        simp only
        rw [hcurf.1, h0f.1, hB.1, hlen]
        exact ⟨hc, rfl, by omega, by omega, by omega⟩
    · rw [addChild_new_idx t cur ch hf, hlen]; omega
    · rw [addChild_new_idx t cur ch hf]; omega
    · rw [hlen]; omega
    · rw [addChild_new_idx t cur ch hf, hnew]
      rfl

/-! ### WS preservation through the remaining operations -/

theorem getNode_ge (t : keyword_trie) (i : Nat) (h : t.trieNodes.length ≤ i) :
    getNode t i = {} := by
  unfold getNode
  rw [List.getD_eq_getElem?_getD, List.getElem?_eq_none h]
  rfl

theorem WS_keywords_congr (t : keyword_trie) (ks : List Result) (hw : WS t) :
    WS { t with keywords := ks } := hw

theorem walkOut_zero (t : keyword_trie) (f : Nat) : walkOut t f 0 = 0 := by
  cases f <;> simp [walkOut]

theorem walkOut_lt (t : keyword_trie) (hw : WS t) :
    ∀ (f i : Nat), i < t.trieNodes.length →
      walkOut t f i < t.trieNodes.length := by
  obtain ⟨hA, hB, hC, hD⟩ := hw
  intro f
  induction f with
  | zero => intro i hi; exact hi
  | succ f ih =>
    intro i hi
    unfold walkOut
    by_cases h0 : i = 0
    · simp only [h0, if_pos rfl]; exact hA
    · rw [if_neg h0]
      by_cases hid : (getNode t i).id ≠ -1
      · rw [if_pos hid]; exact hi
      · rw [if_neg hid]
        exact ih _ ((hD i hi h0).2.2.1)

theorem WS_setNode_id (t : keyword_trie) (n : Nat) (v : Int) (hw : WS t) (hn : n ≠ 0) :
    WS (setNode t n (fun m => { m with id := v })) := by
  obtain ⟨hA, hB, hC, hD⟩ := hw
  have hg : ∀ k, getNode (setNode t n (fun m => { m with id := v })) k
      = if n = k ∧ n < t.trieNodes.length then { getNode t n with id := v }
        else getNode t k := fun k => getNode_setNode t n _ k
  have hfld : ∀ k, ((getNode (setNode t n (fun m => { m with id := v })) k).depth
        = (getNode t k).depth ∧
      (getNode (setNode t n (fun m => { m with id := v })) k).parent = (getNode t k).parent ∧
      (getNode (setNode t n (fun m => { m with id := v })) k).failure = (getNode t k).failure ∧
      (getNode (setNode t n (fun m => { m with id := v })) k).output = (getNode t k).output ∧
      (getNode (setNode t n (fun m => { m with id := v })) k).children
        = (getNode t k).children) := by
    intro k
    rw [hg k]
    by_cases hc : n = k ∧ n < t.trieNodes.length
    · rw [if_pos hc]
      obtain ⟨rfl, _⟩ := hc
      exact ⟨rfl, rfl, rfl, rfl, rfl⟩
    · rw [if_neg hc]
      exact ⟨rfl, rfl, rfl, rfl, rfl⟩
  refine ⟨?_, ?_, ?_, ?_⟩
  · rw [length_setNode]; exact hA
  · have h0 := hfld 0
    have hid0 : (getNode (setNode t n (fun m => { m with id := v })) 0).id
        = (getNode t 0).id := by
      rw [hg 0, if_neg (by intro hh; exact hn hh.1)]
    rw [h0.1, h0.2.1, h0.2.2.1, h0.2.2.2.1, hid0]
    exact hB
  · intro i hi
    rw [length_setNode] at hi
    rw [(hfld i).2.2.2.2]
    refine ⟨(hC i hi).1, ?_⟩
    intro j hj
    have hjold := (hC i hi).2 j hj
    rw [(hfld j).2.1, (hfld j).1, (hfld i).1, length_setNode]
    exact hjold
  · intro i hi hi0
    rw [length_setNode] at hi
    have hold := hD i hi hi0
    rw [(hfld i).1, (hfld i).2.1, (hfld i).2.2.1, (hfld i).2.2.2.1,
      (hfld (getNode t i).parent).1, (hfld (getNode t i).failure).1, length_setNode]
    exact hold

theorem WS_depth_zero (t : keyword_trie) (hw : WS t) (i : Nat)
    (hi : i < t.trieNodes.length) (h : (getNode t i).depth = 0) : i = 0 := by
  obtain ⟨hA, hB, hC, hD⟩ := hw
  by_contra h0
  have := (hD i hi h0).2.1
  omega

theorem WS_bfsStep (t : keyword_trie) (n : Nat) (hw : WS t) : WS (bfsStep t n) := by
  by_cases hn : n < t.trieNodes.length
  case neg =>
    -- out-of-range dequeue: the step is the identity
    have hget : getNode t n = {} := getNode_ge t n (by omega)
    unfold bfsStep
    rw [hget]
    simp only
    rw [if_neg (by omega)]
    have hset : ∀ (v : Nat), setNode t n (fun m => { m with output := v }) = t := by
      intro v
      unfold setNode
      rw [List.set_eq_of_length_le (by omega)]
    rw [hset]
    exact hw
  case pos =>
    -- the failure update (if any) keeps WS, then so does the output update
    have hstep1 : WS (if ((getNode t (getNode t n).failure).depth : Int)
          < ((getNode t n).depth : Int) - 1 then
        match scanChildren t
            (getNode t (getNode t (getNode t n).parent).failure).children (getNode t n).c with
        | some j => setNode t n (fun m => { m with failure := j })
        | none => t
      else t) := by
      by_cases hguard : ((getNode t (getNode t n).failure).depth : Int)
          < ((getNode t n).depth : Int) - 1
      case neg => rw [if_neg hguard]; exact hw
      case pos =>
        rw [if_pos hguard]
        cases hscan : scanChildren t
            (getNode t (getNode t (getNode t n).parent).failure).children (getNode t n).c with
        | none => exact hw
        | some j =>
          obtain ⟨hA, hB, hC, hD⟩ := hw
          -- the guard forces depth n ≥ 2, hence n ≠ 0 and parent n ≠ 0
          have hdn : 2 ≤ (getNode t n).depth := by omega
          have hn0 : n ≠ 0 := by
            intro h0; rw [h0] at hdn; omega
          have hp := hD n hn hn0
          have hpn : (getNode t n).parent < t.trieNodes.length := by omega
          have hp0 : (getNode t n).parent ≠ 0 := by
            intro h0
            rw [h0, hB.1] at hp
            omega
          have hq := hD (getNode t n).parent hpn hp0
          have hqlt : (getNode t (getNode t n).parent).failure < t.trieNodes.length :=
            hq.2.2.1
          have hmem := scanChildren_eq_some hscan
          have hj := (hC _ hqlt).2 j hmem.1
          have hjd : (getNode t j).depth < (getNode t n).depth := by omega
          -- now check each WS clause for the single-field update
          have hg : ∀ k, getNode (setNode t n (fun m => { m with failure := j })) k
              = if n = k ∧ n < t.trieNodes.length then { getNode t n with failure := j }
                else getNode t k := fun k => getNode_setNode t n _ k
          have hfld : ∀ k, ((getNode (setNode t n (fun m => { m with failure := j })) k).depth
                = (getNode t k).depth ∧
              (getNode (setNode t n (fun m => { m with failure := j })) k).parent
                = (getNode t k).parent ∧
              (getNode (setNode t n (fun m => { m with failure := j })) k).output
                = (getNode t k).output ∧
              (getNode (setNode t n (fun m => { m with failure := j })) k).id
                = (getNode t k).id ∧
              (getNode (setNode t n (fun m => { m with failure := j })) k).children
                = (getNode t k).children) := by
            intro k
            rw [hg k]
            by_cases hc : n = k ∧ n < t.trieNodes.length
            · rw [if_pos hc]
              obtain ⟨rfl, _⟩ := hc
              exact ⟨rfl, rfl, rfl, rfl, rfl⟩
            · rw [if_neg hc]
              exact ⟨rfl, rfl, rfl, rfl, rfl⟩
          have hflf : ∀ k, (getNode (setNode t n (fun m => { m with failure := j })) k).failure
              = if k = n then j else (getNode t k).failure := by
            intro k
            rw [hg k]
            by_cases hc : k = n
            · subst hc; rw [if_pos ⟨rfl, hn⟩, if_pos rfl]
            · rw [if_neg (by intro hh; exact hc hh.1.symm), if_neg hc]
          refine ⟨?_, ?_, ?_, ?_⟩
          · rw [length_setNode]; exact hA
          · have h0 := hfld 0
            rw [h0.1, h0.2.1, h0.2.2.1, h0.2.2.2.1, hflf 0, if_neg (Ne.symm hn0)]
            exact hB
          · intro i hi
            rw [length_setNode] at hi
            rw [(hfld i).2.2.2.2]
            refine ⟨(hC i hi).1, ?_⟩
            intro a ha
            have haold := (hC i hi).2 a ha
            rw [(hfld a).2.1, (hfld a).1, (hfld i).1, length_setNode]
            exact haold
          · intro i hi hi0
            rw [length_setNode] at hi
            have hold := hD i hi hi0
            rw [(hfld i).1, (hfld i).2.1, (hfld i).2.2.1,
              (hfld (getNode t i).parent).1, hflf i, length_setNode]
            by_cases hin : i = n
            · subst hin
              rw [if_pos rfl, (hfld j).1]
              exact ⟨hold.1, hold.2.1, hj.1, hjd, hold.2.2.2.2⟩
            · rw [if_neg hin, (hfld (getNode t i).failure).1]
              exact hold
    -- output update
    set t1 := (if ((getNode t (getNode t n).failure).depth : Int)
          < ((getNode t n).depth : Int) - 1 then
        match scanChildren t
            (getNode t (getNode t (getNode t n).parent).failure).children (getNode t n).c with
        | some j => setNode t n (fun m => { m with failure := j })
        | none => t
      else t) with ht1
    have hlen1 : t1.trieNodes.length = t.trieNodes.length := by
      rw [ht1]
      by_cases hguard : ((getNode t (getNode t n).failure).depth : Int)
          < ((getNode t n).depth : Int) - 1
      · rw [if_pos hguard]
        cases hscan : scanChildren t
            (getNode t (getNode t (getNode t n).parent).failure).children (getNode t n).c with
        | none => rfl
        | some j => rw [length_setNode]
      · rw [if_neg hguard]
    obtain ⟨hA1, hB1, hC1, hD1⟩ := hstep1
    have hout : walkOut t1 t1.trieNodes.length (getNode t1 n).failure
        < t.trieNodes.length := by
      rw [← hlen1]
      apply walkOut_lt t1 ⟨hA1, hB1, hC1, hD1⟩
      by_cases hn0 : n = 0
      · rw [hn0, hB1.2.2.1]; omega
      · exact (hD1 n (by omega) hn0).2.2.1
    have hout0 : n = 0 → walkOut t1 t1.trieNodes.length (getNode t1 n).failure = 0 := by
      intro hn0
      rw [hn0, hB1.2.2.1, walkOut_zero]
    -- the final setNode only modifies the output field of n
    show WS (setNode t1 n (fun m => { m with output := walkOut t1 t1.trieNodes.length (getNode t1 n).failure }))
    set v := walkOut t1 t1.trieNodes.length (getNode t1 n).failure with hv
    have hg : ∀ k, getNode (setNode t1 n (fun m => { m with output := v })) k
        = if n = k ∧ n < t1.trieNodes.length then { getNode t1 n with output := v }
          else getNode t1 k := fun k => getNode_setNode t1 n _ k
    have hfld : ∀ k, ((getNode (setNode t1 n (fun m => { m with output := v })) k).depth
          = (getNode t1 k).depth ∧
        (getNode (setNode t1 n (fun m => { m with output := v })) k).parent
          = (getNode t1 k).parent ∧
        (getNode (setNode t1 n (fun m => { m with output := v })) k).failure
          = (getNode t1 k).failure ∧
        (getNode (setNode t1 n (fun m => { m with output := v })) k).id
          = (getNode t1 k).id ∧
        (getNode (setNode t1 n (fun m => { m with output := v })) k).children
          = (getNode t1 k).children) := by
      intro k
      rw [hg k]
      by_cases hc : n = k ∧ n < t1.trieNodes.length
      · rw [if_pos hc]
        obtain ⟨rfl, _⟩ := hc
        exact ⟨rfl, rfl, rfl, rfl, rfl⟩
      · rw [if_neg hc]
        exact ⟨rfl, rfl, rfl, rfl, rfl⟩
    have hflo : ∀ k, (getNode (setNode t1 n (fun m => { m with output := v })) k).output
        = if k = n then v else (getNode t1 k).output := by
      intro k
      rw [hg k]
      by_cases hc : k = n
      · subst hc; rw [if_pos ⟨rfl, by omega⟩, if_pos rfl]
      · rw [if_neg (by intro hh; exact hc hh.1.symm), if_neg hc]
    refine ⟨?_, ?_, ?_, ?_⟩
    · rw [length_setNode]; exact hA1
    · have h0 := hfld 0
      rw [h0.1, h0.2.1, h0.2.2.1, h0.2.2.2.1, hflo 0]
      by_cases hn0 : 0 = n
      · rw [if_pos hn0, hv]
        exact ⟨hB1.1, hB1.2.1, hB1.2.2.1, hout0 hn0.symm, hB1.2.2.2.2⟩
      · rw [if_neg hn0]
        exact hB1
    · intro i hi
      rw [length_setNode] at hi
      rw [(hfld i).2.2.2.2]
      refine ⟨(hC1 i hi).1, ?_⟩
      intro a ha
      have haold := (hC1 i hi).2 a ha
      rw [(hfld a).2.1, (hfld a).1, (hfld i).1, length_setNode]
      exact haold
    · intro i hi hi0
      rw [length_setNode] at hi
      have hold := hD1 i hi hi0
      rw [(hfld i).1, (hfld i).2.1, (hfld i).2.2.1,
        (hfld (getNode t1 i).parent).1, (hfld (getNode t1 i).failure).1, hflo i,
        length_setNode]
      by_cases hin : i = n
      · rw [if_pos hin]
        exact ⟨hold.1, hold.2.1, hold.2.2.1, hold.2.2.2.1, by omega⟩
      · rw [if_neg hin]
        exact hold

theorem WS_bfsLoop (t : keyword_trie) (f : Nat) (q : List Nat) (hw : WS t) :
    WS (bfsLoop t f q) := by
  induction f generalizing t q with
  | zero => cases q <;> exact hw
  | succ f ih =>
    cases q with
    | nil => exact hw
    | cons n rest => exact ih (bfsStep t n) _ (WS_bfsStep t n hw)

theorem WS_addFailureLinks (t : keyword_trie) (hw : WS t) :
    WS (addFailureLinks t) :=
  WS_bfsLoop t _ _ hw

theorem foldl_addChild_WS (key : List Nat) :
    ∀ (t : keyword_trie) (cur : Nat), WS t → cur < t.trieNodes.length →
      WS (key.foldl (fun (p : keyword_trie × Nat) ch =>
          addChild p.1 p.2 (fold p.1 ch)) (t, cur)).1 ∧
      (key.foldl (fun (p : keyword_trie × Nat) ch =>
          addChild p.1 p.2 (fold p.1 ch)) (t, cur)).2
        < (key.foldl (fun (p : keyword_trie × Nat) ch =>
          addChild p.1 p.2 (fold p.1 ch)) (t, cur)).1.trieNodes.length ∧
      (key ≠ [] → (key.foldl (fun (p : keyword_trie × Nat) ch =>
          addChild p.1 p.2 (fold p.1 ch)) (t, cur)).2 ≠ 0) := by
  induction key with
  | nil =>
    intro t cur hw hc
    exact ⟨hw, hc, by intro h; exact absurd rfl h⟩
  | cons ch rest ih =>
    intro t cur hw hc
    simp only [List.foldl_cons]
    have hstep := WS_addChild t cur (fold t ch) hw hc
    rcases rest with _ | ⟨c2, r2⟩
    · simp only [List.foldl_nil]
      exact ⟨hstep.1, hstep.2.1, fun _ => hstep.2.2.1⟩
    · have := ih (addChild t cur (fold t ch)).1 (addChild t cur (fold t ch)).2
        hstep.1 hstep.2.1
      exact ⟨this.1, this.2.1, fun _ => this.2.2 (by simp)⟩

theorem WS_addString (t : keyword_trie) (key : List Nat) (flag : Bool) (hw : WS t) :
    WS (addString t key flag).2 := by
  unfold addString
  by_cases hk : key = []
  · rw [if_pos hk]; exact hw
  · rw [if_neg hk]
    simp only
    have hwalk := foldl_addChild_WS key t 0 hw hw.1
    set p := key.foldl (fun (p : keyword_trie × Nat) ch =>
      addChild p.1 p.2 (fold p.1 ch)) (t, 0) with hp
    by_cases hid : (getNode p.1 p.2).id ≠ -1
    · rw [if_pos hid]
      exact hwalk.1
    · rw [if_neg hid]
      have h2 := WS_setNode_id p.1 p.2 (p.1.keywords.length : Int) hwalk.1
        (hwalk.2.2 hk)
      have h3 : WS { setNode p.1 p.2 (fun n => { n with id := (p.1.keywords.length : Int) })
          with keywords := (setNode p.1 p.2 (fun n =>
            { n with id := (p.1.keywords.length : Int) })).keywords ++
              [{ keyword := key, id := (setNode p.1 p.2 (fun n =>
                { n with id := (p.1.keywords.length : Int) })).keywords.length }] } :=
        WS_keywords_congr _ _ h2
      by_cases hfl : flag = true
      · rw [if_pos hfl]
        exact WS_addFailureLinks _ h3
      · rw [if_neg hfl]
        exact h3

theorem WS_empty (cs : Bool) : WS { caseSensitive := cs } := by
  refine ⟨Nat.zero_lt_one, ?_, ?_, ?_⟩
  · exact ⟨rfl, rfl, rfl, rfl, rfl⟩
  · intro i hi
    have hi0 : i = 0 := by
      change i < 1 at hi
      omega
    subst hi0
    exact ⟨List.nodup_nil, by intro j hj; cases hj⟩
  · intro i hi hi0
    change i < 1 at hi
    omega

theorem Built_WS (t : keyword_trie) (hb : Built t) : WS t := by
  induction hb with
  | base cs => exact WS_empty cs
  | insert key flag hb ih => exact WS_addString _ key flag ih
  | links hb ih => exact WS_addFailureLinks _ ih

/-! ### Reachability helpers for the batch overloads -/

theorem Built_addStringsLoop (ks : List (List Nat)) :
    ∀ (t : keyword_trie), Built t → Built (addStringsLoop t ks).2 := by
  induction ks with
  | nil => intro t hb; exact hb
  | cons k ks ih =>
    intro t hb
    unfold addStringsLoop
    cases hres : addString t k false with
    | mk e t' =>
      have hbt' : Built t' := by
        have := Built.insert k false hb
        rw [hres] at this
        exact this
      cases e with
      | none => exact ih t' hbt'
      | some e => exact hbt'

theorem Built_addStringSet (t : keyword_trie) (ks : List (List Nat)) (hb : Built t) :
    Built (addStringSet t ks).2 := by
  unfold addStringSet
  cases hres : addStringsLoop t (setOfList ks) with
  | mk e t' =>
    have hbt' : Built t' := by
      have := Built_addStringsLoop (setOfList ks) t hb
      rw [hres] at this
      exact this
    cases e with
    | none => exact Built.links hbt'
    | some e => exact hbt'

theorem Built_addStringVec (t : keyword_trie) (ks : List (List Nat)) (hb : Built t) :
    Built (addStringVec t ks).2 := by
  unfold addStringVec
  cases hres : addStringsLoop t ks with
  | mk e t' =>
    have hbt' : Built t' := by
      have := Built_addStringsLoop ks t hb
      rw [hres] at this
      exact this
    cases e with
    | none => exact Built.links hbt'
    | some e => exact hbt'

/-- Following failure links from any node for as many steps as its depth
lands at the root (the chain strictly decreases depth and stays there). -/
theorem failIter_reaches_root (t : keyword_trie) (hw : WS t) :
    ∀ (k i : Nat), i < t.trieNodes.length → (getNode t i).depth ≤ k →
      failIter t k i = 0 := by
  intro k
  induction k with
  | zero =>
    intro i hi hd
    have h0 : (getNode t i).depth = 0 := by omega
    exact WS_depth_zero t hw i hi h0
  | succ k ih =>
    intro i hi hd
    unfold failIter
    by_cases h0 : i = 0
    · subst h0
      rw [hw.2.1.2.2.1]
      exact ih 0 hw.1 (by rw [hw.2.1.1]; omega)
    · have hD := hw.2.2.2 i hi h0
      exact ih _ hD.2.2.1 (by omega)

/-! ### Shape preservation: operations that only touch links -/

theorem addChild_cs (t : keyword_trie) (cur ch : Nat) :
    (addChild t cur ch).1.caseSensitive = t.caseSensitive := by
  cases hf : (getNode t cur).children.find? (fun j => (getNode t j).c = ch) with
  | some j => rw [addChild_found t cur ch j hf]
  | none => exact addChild_new_cs t cur ch hf

theorem addChild_keywords (t : keyword_trie) (cur ch : Nat) :
    (addChild t cur ch).1.keywords = t.keywords := by
  cases hf : (getNode t cur).children.find? (fun j => (getNode t j).c = ch) with
  | some j => rw [addChild_found t cur ch j hf]
  | none => exact addChild_new_keywords t cur ch hf

theorem find?_congr_pred (l : List Nat) (p q : Nat → Bool)
    (h : ∀ x ∈ l, p x = q x) : l.find? p = l.find? q := by
  induction l with
  | nil => rfl
  | cons x xs ih =>
    simp only [List.find?_cons]
    rw [h x (List.mem_cons_self _ _)]
    cases q x
    · exact ih (fun y hy => h y (List.mem_cons_of_mem _ hy))
    · rfl

/-- `bfsStep` changes only failure and output fields: the arena size, the
keyword list, the flag, and every node's id, depth, symbol, parent and
child list are untouched. -/
theorem bfsStep_shape (t : keyword_trie) (n : Nat) :
    (bfsStep t n).trieNodes.length = t.trieNodes.length ∧
    (bfsStep t n).keywords = t.keywords ∧
    (bfsStep t n).caseSensitive = t.caseSensitive ∧
    ∀ k, (getNode (bfsStep t n) k).id = (getNode t k).id ∧
      (getNode (bfsStep t n) k).depth = (getNode t k).depth ∧
      (getNode (bfsStep t n) k).c = (getNode t k).c ∧
      (getNode (bfsStep t n) k).parent = (getNode t k).parent ∧
      (getNode (bfsStep t n) k).children = (getNode t k).children := by
  unfold bfsStep
  simp only
  set t1 := (if ((getNode t (getNode t n).failure).depth : Int)
        < ((getNode t n).depth : Int) - 1 then
      match scanChildren t
          (getNode t (getNode t (getNode t n).parent).failure).children (getNode t n).c with
      | some j => setNode t n (fun m => { m with failure := j })
      | none => t
    else t) with ht1
  have h1 : t1.trieNodes.length = t.trieNodes.length ∧
      t1.keywords = t.keywords ∧ t1.caseSensitive = t.caseSensitive ∧
      ∀ k, (getNode t1 k).id = (getNode t k).id ∧
        (getNode t1 k).depth = (getNode t k).depth ∧
        (getNode t1 k).c = (getNode t k).c ∧
        (getNode t1 k).parent = (getNode t k).parent ∧
        (getNode t1 k).children = (getNode t k).children := by
    rw [ht1]
    by_cases hguard : ((getNode t (getNode t n).failure).depth : Int)
        < ((getNode t n).depth : Int) - 1
    · rw [if_pos hguard]
      cases hscan : scanChildren t
          (getNode t (getNode t (getNode t n).parent).failure).children (getNode t n).c with
      | none => exact ⟨rfl, rfl, rfl, fun k => ⟨rfl, rfl, rfl, rfl, rfl⟩⟩
      | some j =>
        refine ⟨length_setNode _ _ _, rfl, rfl, ?_⟩
        intro k
        rw [getNode_setNode]
        by_cases hc : n = k ∧ n < t.trieNodes.length
        · rw [if_pos hc]
          obtain ⟨rfl, _⟩ := hc
          exact ⟨rfl, rfl, rfl, rfl, rfl⟩
        · rw [if_neg hc]
          exact ⟨rfl, rfl, rfl, rfl, rfl⟩
    · rw [if_neg hguard]
      exact ⟨rfl, rfl, rfl, fun k => ⟨rfl, rfl, rfl, rfl, rfl⟩⟩
  refine ⟨?_, ?_, ?_, ?_⟩
  · rw [length_setNode]; exact h1.1
  · rw [keywords_setNode]; exact h1.2.1
  · rw [caseSensitive_setNode]; exact h1.2.2.1
  · intro k
    have h2 := h1.2.2.2 k
    rw [getNode_setNode]
    by_cases hc : n = k ∧ n < t1.trieNodes.length
    · rw [if_pos hc]
      obtain ⟨rfl, _⟩ := hc
      exact h1.2.2.2 n
    · rw [if_neg hc]
      exact h2

theorem bfsLoop_shape (f : Nat) :
    ∀ (t : keyword_trie) (q : List Nat),
    (bfsLoop t f q).trieNodes.length = t.trieNodes.length ∧
    (bfsLoop t f q).keywords = t.keywords ∧
    (bfsLoop t f q).caseSensitive = t.caseSensitive ∧
    ∀ k, (getNode (bfsLoop t f q) k).id = (getNode t k).id ∧
      (getNode (bfsLoop t f q) k).depth = (getNode t k).depth ∧
      (getNode (bfsLoop t f q) k).c = (getNode t k).c ∧
      (getNode (bfsLoop t f q) k).parent = (getNode t k).parent ∧
      (getNode (bfsLoop t f q) k).children = (getNode t k).children := by
  induction f with
  | zero =>
    intro t q
    cases q <;> exact ⟨rfl, rfl, rfl, fun k => ⟨rfl, rfl, rfl, rfl, rfl⟩⟩
  | succ f ih =>
    intro t q
    cases q with
    | nil => exact ⟨rfl, rfl, rfl, fun k => ⟨rfl, rfl, rfl, rfl, rfl⟩⟩
    | cons n rest =>
      have hstep := bfsStep_shape t n
      have hih := ih (bfsStep t n) (rest ++ (getNode t n).children)
      simp only [bfsLoop]
      refine ⟨by rw [hih.1, hstep.1], by rw [hih.2.1, hstep.2.1],
        by rw [hih.2.2.1, hstep.2.2.1], ?_⟩
      intro k
      have ha := hih.2.2.2 k
      have hb := hstep.2.2.2 k
      exact ⟨by rw [ha.1, hb.1], by rw [ha.2.1, hb.2.1], by rw [ha.2.2.1, hb.2.2.1],
        by rw [ha.2.2.2.1, hb.2.2.2.1], by rw [ha.2.2.2.2, hb.2.2.2.2]⟩

theorem addFailureLinks_shape (t : keyword_trie) :
    (addFailureLinks t).trieNodes.length = t.trieNodes.length ∧
    (addFailureLinks t).keywords = t.keywords ∧
    (addFailureLinks t).caseSensitive = t.caseSensitive ∧
    ∀ k, (getNode (addFailureLinks t) k).id = (getNode t k).id ∧
      (getNode (addFailureLinks t) k).depth = (getNode t k).depth ∧
      (getNode (addFailureLinks t) k).c = (getNode t k).c ∧
      (getNode (addFailureLinks t) k).parent = (getNode t k).parent ∧
      (getNode (addFailureLinks t) k).children = (getNode t k).children :=
  bfsLoop_shape _ t [0]

/-! ### The insertion walk -/

theorem addString_walk_eq (key : List Nat) :
    ∀ (t : keyword_trie) (cur : Nat),
      key.foldl (fun (p : keyword_trie × Nat) ch =>
        addChild p.1 p.2 (fold p.1 ch)) (t, cur)
      = walkAdd t cur (key.map (fold t)) := by
  induction key with
  | nil => intro t cur; rfl
  | cons ch rest ih =>
    intro t cur
    simp only [List.foldl_cons, List.map_cons]
    unfold walkAdd
    simp only [List.foldl_cons]
    have hcs : ∀ c, fold (addChild t cur (fold t ch)).1 c = fold t c := by
      intro c
      unfold fold
      rw [addChild_cs]
    have := ih (addChild t cur (fold t ch)).1 (addChild t cur (fold t ch)).2
    rw [show (addChild t cur (fold t ch)).1 = ((addChild t cur (fold t ch)).1,
      (addChild t cur (fold t ch)).2).1 from rfl] at this
    calc rest.foldl (fun (p : keyword_trie × Nat) ch => addChild p.1 p.2 (fold p.1 ch))
          (addChild t cur (fold t ch))
        = rest.foldl (fun (p : keyword_trie × Nat) ch => addChild p.1 p.2 (fold p.1 ch))
          ((addChild t cur (fold t ch)).1, (addChild t cur (fold t ch)).2) := by rfl
      _ = walkAdd (addChild t cur (fold t ch)).1 (addChild t cur (fold t ch)).2
          (rest.map (fold (addChild t cur (fold t ch)).1)) := this
      _ = walkAdd (addChild t cur (fold t ch)).1 (addChild t cur (fold t ch)).2
          (rest.map (fold t)) := by rw [List.map_congr_left (fun c _ => hcs c)]
      _ = walkAdd t cur (fold t ch :: rest.map (fold t)) := by
          unfold walkAdd
          simp only [List.foldl_cons]

/-- Walking along a path that already exists performs no mutation. -/
theorem walkAdd_of_lookupPath :
    ∀ (l : List Nat) (t : keyword_trie) (cur j : Nat),
      lookupPath t l cur = some j → walkAdd t cur l = (t, j) := by
  intro l
  induction l with
  | nil =>
    intro t cur j h
    unfold lookupPath at h
    injection h with h
    rw [h]
    rfl
  | cons ch rest ih =>
    intro t cur j h
    unfold lookupPath at h
    cases hf : (getNode t cur).children.find? (fun a => (getNode t a).c = ch) with
    | none => rw [hf] at h; cases h
    | some j0 =>
      rw [hf] at h
      unfold walkAdd
      simp only [List.foldl_cons]
      rw [addChild_found t cur ch j0 hf]
      exact ih t j0 j h

/-- `lookupPath` only reads child lists and edge symbols. -/
theorem lookupPath_congr (t t' : keyword_trie)
    (h : ∀ k, (getNode t' k).children = (getNode t k).children ∧
      (getNode t' k).c = (getNode t k).c) :
    ∀ (l : List Nat) (cur : Nat), lookupPath t' l cur = lookupPath t l cur := by
  intro l
  induction l with
  | nil => intro cur; rfl
  | cons ch rest ih =>
    intro cur
    unfold lookupPath
    rw [(h cur).1]
    rw [find?_congr_pred _ _ _ (fun x _ => by
      rw [show (getNode t' x).c = (getNode t x).c from (h x).2])]
    cases (getNode t cur).children.find? (fun a => (getNode t a).c = ch) with
    | none => rfl
    | some j => exact ih j

theorem walkAdd_flags (l : List Nat) :
    ∀ (t : keyword_trie) (cur : Nat),
      (walkAdd t cur l).1.caseSensitive = t.caseSensitive ∧
      (walkAdd t cur l).1.keywords = t.keywords := by
  induction l with
  | nil => intro t cur; exact ⟨rfl, rfl⟩
  | cons ch rest ih =>
    intro t cur
    unfold walkAdd
    simp only [List.foldl_cons]
    have := ih (addChild t cur ch).1 (addChild t cur ch).2
    unfold walkAdd at this
    exact ⟨this.1.trans (addChild_cs t cur ch), this.2.trans (addChild_keywords t cur ch)⟩

theorem walkAdd_facts (l : List Nat) :
    ∀ (t : keyword_trie) (cur : Nat), WS t → cur < t.trieNodes.length →
      WS (walkAdd t cur l).1 ∧
      (walkAdd t cur l).2 < (walkAdd t cur l).1.trieNodes.length ∧
      cur ≤ (walkAdd t cur l).2 ∧
      t.trieNodes.length ≤ (walkAdd t cur l).1.trieNodes.length ∧
      (∀ k, k < cur → getNode (walkAdd t cur l).1 k = getNode t k) ∧
      (∀ k, k < t.trieNodes.length →
        (getNode (walkAdd t cur l).1 k).c = (getNode t k).c) := by
  induction l with
  | nil =>
    intro t cur hw hc
    exact ⟨hw, hc, le_rfl, le_rfl, fun k _ => rfl, fun k _ => rfl⟩
  | cons ch rest ih =>
    intro t cur hw hc
    unfold walkAdd
    simp only [List.foldl_cons]
    have hstep := WS_addChild t cur ch hw hc
    -- the index strictly increases at each step
    have hlt : cur < (addChild t cur ch).2 := by
      cases hf : (getNode t cur).children.find? (fun j => (getNode t j).c = ch) with
      | some j =>
        rw [addChild_found t cur ch j hf]
        exact ((hw.2.2.1 cur hc).2 j (List.mem_of_find?_eq_some hf)).2.1
      | none =>
        rw [addChild_new_idx t cur ch hf]
        exact hc
    have hframe1 : ∀ k, k < cur → getNode (addChild t cur ch).1 k = getNode t k := by
      intro k hk
      cases hf : (getNode t cur).children.find? (fun j => (getNode t j).c = ch) with
      | some j => rw [addChild_found t cur ch j hf]
      | none =>
        rw [getNode_addChild_new t cur ch hf hc k]
        rw [if_neg (by omega), if_pos (by omega)]
    have hcpres1 : ∀ k, k < t.trieNodes.length →
        (getNode (addChild t cur ch).1 k).c = (getNode t k).c := by
      intro k hk
      cases hf : (getNode t cur).children.find? (fun j => (getNode t j).c = ch) with
      | some j => rw [addChild_found t cur ch j hf]
      | none => exact (fields_addChild_new t cur ch hf hc k hk).2.2.2.2.2
    have hih := ih (addChild t cur ch).1 (addChild t cur ch).2 hstep.1 hstep.2.1
    have hw2 : walkAdd (addChild t cur ch).1 (addChild t cur ch).2 rest
        = rest.foldl (fun p ch => addChild p.1 p.2 ch) (addChild t cur ch) := rfl
    rw [← hw2]
    refine ⟨hih.1, hih.2.1, by omega, le_trans hstep.2.2.2.1 hih.2.2.2.1, ?_, ?_⟩
    · intro k hk
      rw [hih.2.2.2.2.1 k (by omega), hframe1 k hk]
    · intro k hk
      rw [hih.2.2.2.2.2 k (by omega), hcpres1 k hk]

theorem find?_append_none {l1 l2 : List Nat} {p : Nat → Bool}
    (h : l1.find? p = none) : (l1 ++ l2).find? p = l2.find? p := by
  induction l1 with
  | nil => rfl
  | cons x xs ih =>
    simp only [List.find?_cons] at h ⊢
    cases hx : p x with
    | true => rw [hx] at h; cases h
    | false =>
      rw [hx] at h
      simp only [List.cons_append, List.find?_cons, hx]
      exact ih h

/-- After the insertion walk, looking the walked symbols up from the start
node finds exactly the walk's final node. -/
theorem lookupPath_walkAdd (l : List Nat) :
    ∀ (t : keyword_trie) (cur : Nat), WS t → cur < t.trieNodes.length →
      lookupPath (walkAdd t cur l).1 l cur = some (walkAdd t cur l).2 := by
  induction l with
  | nil => intro t cur hw hc; rfl
  | cons ch rest ih =>
    intro t cur hw hc
    have hstep := WS_addChild t cur ch hw hc
    have hlt : cur < (addChild t cur ch).2 := by
      cases hf : (getNode t cur).children.find? (fun j => (getNode t j).c = ch) with
      | some j =>
        rw [addChild_found t cur ch j hf]
        exact ((hw.2.2.1 cur hc).2 j (List.mem_of_find?_eq_some hf)).2.1
      | none =>
        rw [addChild_new_idx t cur ch hf]
        exact hc
    have hrest := walkAdd_facts rest (addChild t cur ch).1 (addChild t cur ch).2
      hstep.1 hstep.2.1
    have hstepeq : walkAdd t cur (ch :: rest)
        = walkAdd (addChild t cur ch).1 (addChild t cur ch).2 rest := by
      unfold walkAdd
      simp only [List.foldl_cons]
    rw [hstepeq]
    set ta := (addChild t cur ch).1 with hta
    set ja := (addChild t cur ch).2 with hja
    set tf := (walkAdd ta ja rest).1 with htf
    -- the walk past the first step does not touch node `cur`
    have hcur : getNode tf cur = getNode ta cur := hrest.2.2.2.2.1 cur hlt
    unfold lookupPath
    -- the first lookup step lands on `ja`
    have hfind : (getNode tf cur).children.find? (fun a => (getNode tf a).c = ch)
        = some ja := by
      rw [hcur]
      have hmem : ∀ x ∈ (getNode ta cur).children, x < ta.trieNodes.length := by
        intro x hx
        exact ((hstep.1.2.2.1 cur (by omega)).2 x hx).1
      have hcongr : (getNode ta cur).children.find? (fun a => (getNode tf a).c = ch)
          = (getNode ta cur).children.find? (fun a => (getNode ta a).c = ch) := by
        apply find?_congr_pred
        intro x hx
        rw [hrest.2.2.2.2.2 x (hmem x hx)]
      rw [hcongr]
      cases hf : (getNode t cur).children.find? (fun j => (getNode t j).c = ch) with
      | some j =>
        have : ta = t := by rw [hta, addChild_found t cur ch j hf]
        have hj2 : ja = j := by rw [hja, addChild_found t cur ch j hf]
        rw [this, hj2]
        exact hf
      | none =>
        have hchild : (getNode ta cur).children
            = (getNode t cur).children ++ [t.trieNodes.length] := by
          rw [hta, getNode_addChild_new t cur ch hf hc cur, if_pos rfl]
        have hcold : ∀ x ∈ (getNode t cur).children,
            (getNode ta x).c = (getNode t x).c := by
          intro x hx
          exact (fields_addChild_new t cur ch hf hc x
            ((hw.2.2.1 cur hc).2 x hx).1).2.2.2.2.2
        have hnone : (getNode t cur).children.find? (fun a => (getNode ta a).c = ch)
            = none := by
          rw [find?_congr_pred _ _ (fun a => (getNode t a).c = ch)
            (fun x hx => by rw [hcold x hx])]
          exact hf
        rw [hchild, find?_append_none hnone]
        have hN : (getNode ta t.trieNodes.length).c = ch := by
          rw [hta, getNode_addChild_new t cur ch hf hc t.trieNodes.length]
          rw [if_neg (by omega), if_neg (by omega), if_pos rfl]
          rfl
        simp only [List.find?_cons, hN]
        rw [hja, addChild_new_idx t cur ch hf]
        simp
    rw [hfind]
    exact ih ta ja hstep.1 hstep.2.1

/-! ### C4: duplicate insertion is rejected and mutates nothing -/

/-- After a successful insertion, the folded keyword can be looked up and
its final node carries a keyword identifier; the flag is untouched. -/
theorem addString_ok (t : keyword_trie) (key : List Nat) (flag : Bool)
    (t1 : keyword_trie) (hw : WS t) (hk : key ≠ [])
    (h : addString t key flag = (none, t1)) :
    lookupPath t1 (key.map (fold t)) 0 = some (walkAdd t 0 (key.map (fold t))).2 ∧
    (getNode t1 (walkAdd t 0 (key.map (fold t))).2).id ≠ -1 ∧
    t1.caseSensitive = t.caseSensitive := by
  unfold addString at h
  rw [if_neg hk] at h
  simp only at h
  rw [addString_walk_eq] at h
  set w := walkAdd t 0 (key.map (fold t)) with hwdef
  have hfacts := walkAdd_facts (key.map (fold t)) t 0 hw hw.1
  rw [← hwdef] at hfacts
  have hlook := lookupPath_walkAdd (key.map (fold t)) t 0 hw hw.1
  rw [← hwdef] at hlook
  by_cases hid : (getNode w.1 w.2).id ≠ -1
  · rw [if_pos hid] at h
    cases h
  · rw [if_neg hid] at h
    set t3 : keyword_trie :=
      { setNode w.1 w.2 (fun n => { n with id := (w.1.keywords.length : Int) }) with
        keywords := (setNode w.1 w.2
            (fun n => { n with id := (w.1.keywords.length : Int) })).keywords ++
          [{ keyword := key,
             id := (setNode w.1 w.2
               (fun n => { n with id := (w.1.keywords.length : Int) })).keywords.length }] }
      with ht3
    have hshape3 : ∀ k, (getNode t3 k).children = (getNode w.1 k).children ∧
        (getNode t3 k).c = (getNode w.1 k).c := by
      intro k
      have : getNode t3 k
          = getNode (setNode w.1 w.2
            (fun n => { n with id := (w.1.keywords.length : Int) })) k := rfl
      rw [this, getNode_setNode]
      by_cases hc : w.2 = k ∧ w.2 < w.1.trieNodes.length
      · rw [if_pos hc]
        obtain ⟨rfl, _⟩ := hc
        exact ⟨rfl, rfl⟩
      · rw [if_neg hc]
        exact ⟨rfl, rfl⟩
    have hlook3 : lookupPath t3 (key.map (fold t)) 0 = some w.2 := by
      rw [lookupPath_congr w.1 t3 hshape3]
      exact hlook
    have hid3 : (getNode t3 w.2).id ≠ -1 := by
      have : getNode t3 w.2
          = getNode (setNode w.1 w.2
            (fun n => { n with id := (w.1.keywords.length : Int) })) w.2 := rfl
      rw [this, getNode_setNode_self _ _ _ hfacts.2.1]
      simp only
      omega
    have hcs3 : t3.caseSensitive = t.caseSensitive := by
      have h1 : t3.caseSensitive = w.1.caseSensitive := rfl
      rw [h1]
      have := walkAdd_flags (key.map (fold t)) t 0
      rw [← hwdef] at this
      exact this.1
    cases flag with
    | true =>
      rw [if_pos rfl] at h
      have ht1 : t1 = addFailureLinks t3 := by
        injection h with h1 h2
        exact h2.symm
      subst ht1
      have hsh := addFailureLinks_shape t3
      refine ⟨?_, ?_, ?_⟩
      · rw [lookupPath_congr t3 (addFailureLinks t3)
          (fun k => ⟨(hsh.2.2.2 k).2.2.2.2, (hsh.2.2.2 k).2.2.1⟩)]
        exact hlook3
      · rw [(hsh.2.2.2 w.2).1]
        exact hid3
      · rw [hsh.2.2.1]
        exact hcs3
    | false =>
      rw [if_neg (by simp)] at h
      have ht1 : t1 = t3 := by
        injection h with h1 h2
        exact h2.symm
      subst ht1
      exact ⟨hlook3, hid3, hcs3⟩

theorem addChild_c_pres (t : keyword_trie) (c0 ch : Nat) (hc0 : c0 < t.trieNodes.length)
    (x : Nat) (hx : x < t.trieNodes.length) :
    (getNode (addChild t c0 ch).1 x).c = (getNode t x).c := by
  cases hf : (getNode t c0).children.find? (fun y => (getNode t y).c = ch) with
  | some j0 => rw [addChild_found t c0 ch j0 hf]
  | none => exact (fields_addChild_new t c0 ch hf hc0 x hx).2.2.2.2.2

theorem find?_append_some {l1 l2 : List Nat} {p : Nat → Bool} {j : Nat}
    (h : l1.find? p = some j) : (l1 ++ l2).find? p = some j := by
  induction l1 with
  | nil => cases h
  | cons x xs ih =>
    simp only [List.cons_append, List.find?_cons] at h ⊢
    cases hx : p x with
    | true => rw [hx] at h; exact h
    | false => rw [hx] at h; exact ih h

/-- Adding one node to the trie preserves every successful path lookup. -/
theorem lookupPath_addChild_pres (t : keyword_trie) (c0 ch : Nat) (hw : WS t)
    (hc0 : c0 < t.trieNodes.length) :
    ∀ (m : List Nat) (cur j : Nat), cur < t.trieNodes.length →
      lookupPath t m cur = some j →
      lookupPath (addChild t c0 ch).1 m cur = some j := by
  intro m
  induction m with
  | nil => intro cur j _ h; exact h
  | cons a rest ih =>
    intro cur j hcur h
    unfold lookupPath at h ⊢
    cases hfind : (getNode t cur).children.find? (fun x => (getNode t x).c = a) with
    | none =>
      simp only [hfind] at h
      cases h
    | some j1 =>
      simp only [hfind] at h
      have hj1 := (hw.2.2.1 cur hcur).2 j1 (List.mem_of_find?_eq_some hfind)
      have hpred : ∀ x ∈ (getNode t cur).children,
          (decide ((getNode (addChild t c0 ch).1 x).c = a))
            = (decide ((getNode t x).c = a)) := by
        intro x hx
        rw [addChild_c_pres t c0 ch hc0 x ((hw.2.2.1 cur hcur).2 x hx).1]
      have hchr : (getNode (addChild t c0 ch).1 cur).children.find?
          (fun x => (getNode (addChild t c0 ch).1 x).c = a) = some j1 := by
        cases hf : (getNode t c0).children.find? (fun y => (getNode t y).c = ch) with
        | some j0 =>
          rw [addChild_found t c0 ch j0 hf]
          exact hfind
        | none =>
          have hcnode := getNode_addChild_new t c0 ch hf hc0 cur
          by_cases hcc : cur = c0
          · rw [hcnode, if_pos hcc]
            subst hcc
            show ((getNode t cur).children ++ [t.trieNodes.length]).find? _ = some j1
            refine find?_append_some ?_
            rw [find?_congr_pred (getNode t cur).children _ _ hpred]
            exact hfind
          · rw [hcnode, if_neg hcc, if_pos hcur]
            rw [find?_congr_pred (getNode t cur).children _ _ hpred]
            exact hfind
      simp only [hchr]
      exact ih j1 j hj1.1 h

/-- The insertion walk preserves the identifier of every pre-existing node. -/
theorem walkAdd_id_pres (l : List Nat) :
    ∀ (t : keyword_trie) (cur : Nat), WS t → cur < t.trieNodes.length →
      ∀ k, k < t.trieNodes.length →
        (getNode (walkAdd t cur l).1 k).id = (getNode t k).id := by
  induction l with
  | nil => intro t cur _ _ k _; rfl
  | cons ch rest ih =>
    intro t cur hw hc k hk
    have hstepeq : walkAdd t cur (ch :: rest)
        = walkAdd (addChild t cur ch).1 (addChild t cur ch).2 rest := by
      unfold walkAdd
      simp only [List.foldl_cons]
    rw [hstepeq]
    have hstep := WS_addChild t cur ch hw hc
    have hk' : k < (addChild t cur ch).1.trieNodes.length := by
      cases hf : (getNode t cur).children.find? (fun j => (getNode t j).c = ch) with
      | some j => rw [addChild_found t cur ch j hf]; exact hk
      | none => rw [addChild_new_len t cur ch hf]; omega
    rw [ih (addChild t cur ch).1 (addChild t cur ch).2 hstep.1 hstep.2.1 k hk']
    cases hf : (getNode t cur).children.find? (fun j => (getNode t j).c = ch) with
    | some j => rw [addChild_found t cur ch j hf]
    | none => exact (fields_addChild_new t cur ch hf hc k hk).2.2.2.2.1

/-- The insertion walk preserves every successful path lookup from the root. -/
theorem walkAdd_lookup_pres (l : List Nat) :
    ∀ (t : keyword_trie) (cur : Nat), WS t → cur < t.trieNodes.length →
      ∀ (m : List Nat) (j : Nat), lookupPath t m 0 = some j →
        lookupPath (walkAdd t cur l).1 m 0 = some j := by
  induction l with
  | nil => intro t cur _ _ m j h; exact h
  | cons ch rest ih =>
    intro t cur hw hc m j h
    have hstepeq : walkAdd t cur (ch :: rest)
        = walkAdd (addChild t cur ch).1 (addChild t cur ch).2 rest := by
      unfold walkAdd
      simp only [List.foldl_cons]
    rw [hstepeq]
    have hstep := WS_addChild t cur ch hw hc
    exact ih (addChild t cur ch).1 (addChild t cur ch).2 hstep.1 hstep.2.1 m j
      (lookupPath_addChild_pres t cur ch hw hc m 0 j hw.1 h)

theorem KN_addFailureLinks (t : keyword_trie) (h : KN t) : KN (addFailureLinks t) := by
  have hsh := addFailureLinks_shape t
  have hlc : ∀ k, (getNode (addFailureLinks t) k).children = (getNode t k).children ∧
      (getNode (addFailureLinks t) k).c = (getNode t k).c :=
    fun k => ⟨(hsh.2.2.2 k).2.2.2.2, (hsh.2.2.2 k).2.2.1⟩
  have hfoldeq : fold (addFailureLinks t) = fold t := funext fun c => by
    unfold fold
    rw [hsh.2.2.1]
  intro kidx hkidx
  rw [hsh.2.1] at hkidx
  obtain ⟨i, hi, hid, hlk⟩ := h kidx hkidx
  refine ⟨i, by rw [hsh.1]; exact hi, by rw [(hsh.2.2.2 i).1]; exact hid, ?_⟩
  rw [hsh.2.1, hfoldeq, lookupPath_congr t (addFailureLinks t) hlc]
  exact hlk

theorem KN_addString (t : keyword_trie) (key : List Nat) (flag : Bool)
    (hw : WS t) (h : KN t) : KN (addString t key flag).2 := by
  by_cases hkey : key = []
  · unfold addString
    rw [if_pos hkey]
    exact h
  · unfold addString
    rw [if_neg hkey]
    simp only
    rw [addString_walk_eq]
    set w := walkAdd t 0 (key.map (fold t)) with hwdef
    have hfacts := walkAdd_facts (key.map (fold t)) t 0 hw hw.1
    rw [← hwdef] at hfacts
    have hflags := walkAdd_flags (key.map (fold t)) t 0
    rw [← hwdef] at hflags
    have hfold1 : fold w.1 = fold t := funext fun c => by
      unfold fold
      rw [hflags.1]
    have hKNw : KN w.1 := by
      intro kidx hkidx
      rw [hflags.2] at hkidx
      obtain ⟨i, hi, hid, hlk⟩ := h kidx hkidx
      refine ⟨i, lt_of_lt_of_le hi hfacts.2.2.2.1, ?_, ?_⟩
      · rw [hwdef, walkAdd_id_pres (key.map (fold t)) t 0 hw hw.1 i hi]
        exact hid
      · rw [hflags.2, hfold1, hwdef]
        exact walkAdd_lookup_pres (key.map (fold t)) t 0 hw hw.1 _ i hlk
    by_cases hid : (getNode w.1 w.2).id ≠ -1
    · rw [if_pos hid]
      exact hKNw
    · rw [if_neg hid]
      push_neg at hid
      set t2 := setNode w.1 w.2 (fun n => { n with id := (w.1.keywords.length : Int) })
        with ht2
      set t3 : keyword_trie := { t2 with keywords := t2.keywords ++
        [{ keyword := key, id := t2.keywords.length }] } with ht3
      have hkw2 : t2.keywords = w.1.keywords := keywords_setNode _ _ _
      have hlen2 : t2.trieNodes.length = w.1.trieNodes.length := length_setNode _ _ _
      have hkw3 : t3.keywords = t2.keywords ++
          [{ keyword := key, id := t2.keywords.length }] := by
        rw [ht3]
      have hcong2 : ∀ k, (getNode t2 k).children = (getNode w.1 k).children ∧
          (getNode t2 k).c = (getNode w.1 k).c := by
        intro k
        rw [ht2]
        by_cases hkw : w.2 = k
        · subst hkw
          rw [getNode_setNode_self w.1 w.2 _ hfacts.2.1]
          exact ⟨rfl, rfl⟩
        · rw [getNode_setNode_ne w.1 w.2 _ k hkw]
          exact ⟨rfl, rfl⟩
      have hcs3 : t3.caseSensitive = t.caseSensitive := by
        show t2.caseSensitive = t.caseSensitive
        rw [ht2, caseSensitive_setNode, hflags.1]
      have hfold3 : fold t3 = fold t := funext fun c => by
        unfold fold
        rw [hcs3]
      have hlook3 : ∀ (m : List Nat) (j : Nat), lookupPath t3 m 0 = lookupPath w.1 m 0 :=
        fun m j => lookupPath_congr w.1 t3 (fun k => hcong2 k) m 0
      have hKN3 : KN t3 := by
        intro kidx hkidx
        rw [hkw3, List.length_append, hkw2, List.length_singleton] at hkidx
        by_cases hkid : kidx < w.1.keywords.length
        · obtain ⟨i, hi, hid2, hlk⟩ := hKNw kidx hkid
          have hine : w.2 ≠ i := by
            intro he
            rw [← he, hid] at hid2
            omega
          refine ⟨i, ?_, ?_, ?_⟩
          · show i < t2.trieNodes.length
            rw [hlen2]
            exact hi
          · show (getNode t2 i).id = (kidx : Int)
            rw [ht2, getNode_setNode_ne w.1 w.2 _ i hine]
            exact hid2
          · rw [hlook3 _ i, hfold3, ← hfold1, hkw3]
            have hgd : (t2.keywords
                ++ [({ keyword := key, id := t2.keywords.length } : Result)]).getD
                kidx { keyword := [], id := 0 }
                = t2.keywords.getD kidx { keyword := [], id := 0 } := by
              rw [List.getD_eq_getElem?_getD, List.getD_eq_getElem?_getD,
                List.getElem?_append, if_pos (by rw [hkw2]; exact hkid)]
            rw [hgd, hkw2]
            exact hlk
        · have hkeq : kidx = w.1.keywords.length := by omega
          refine ⟨w.2, ?_, ?_, ?_⟩
          · show w.2 < t2.trieNodes.length
            rw [hlen2]
            exact hfacts.2.1
          · show (getNode t2 w.2).id = (kidx : Int)
            rw [ht2, getNode_setNode_self w.1 w.2 _ hfacts.2.1, hkeq]
          · rw [hlook3 _ w.2, hfold3, hkw3]
            have hgd : (t2.keywords
                ++ [({ keyword := key, id := t2.keywords.length } : Result)]).getD
                kidx { keyword := [], id := 0 }
                = ({ keyword := key, id := t2.keywords.length } : Result) := by
              rw [List.getD_eq_getElem?_getD, hkeq, ← hkw2, List.getElem?_concat_length]
              rfl
            rw [hgd]
            show lookupPath w.1 (key.map (fold t)) 0 = some w.2
            rw [hwdef]
            exact lookupPath_walkAdd (key.map (fold t)) t 0 hw hw.1
      cases flag with
      | false => exact hKN3
      | true => exact KN_addFailureLinks t3 hKN3

theorem Built_KN (t : keyword_trie) (hb : Built t) : KN t := by
  induction hb with
  | base cs =>
    intro kidx hkidx
    exact absurd hkidx (Nat.not_lt_zero kidx)
  | insert key flag hb ih => exact KN_addString _ key flag (Built_WS _ hb) ih
  | links hb ih => exact KN_addFailureLinks _ ih

/-- C4: inserting a keyword whose case-folded form was already successfully
inserted — in any reachable automaton state, however many insertions or link
rebuilds happened in between — fails with the duplicate-keyword error and
returns the automaton exactly as it was: no node is created or modified,
the keyword list keeps its length and contents, so no identifier is
consumed and the first insertion's identifier is untouched. -/
theorem addString_duplicate_rejected (t : keyword_trie) (k : List Nat) (flag : Bool)
    (hb : Built t) (idx : Nat) (hidx : idx < t.keywords.length)
    (hfold : k.map (fold t)
      = (t.keywords.getD idx { keyword := [], id := 0 }).keyword.map (fold t)) :
    addString t k flag = (some Err.DuplicateKeyword, t) := by
  have hw := Built_WS t hb
  obtain ⟨i, hilen, hid, hlk⟩ := Built_KN t hb idx hidx
  have hidne : (getNode t i).id ≠ -1 := by
    rw [hid]
    omega
  have hlook : lookupPath t (k.map (fold t)) 0 = some i := by
    rw [hfold]
    exact hlk
  have hk : k ≠ [] := by
    intro hknil
    rw [hknil] at hlook
    simp only [List.map_nil] at hlook
    unfold lookupPath at hlook
    injection hlook with hlook
    rw [← hlook, hw.2.1.2.2.2.2] at hid
    omega
  unfold addString
  rw [if_neg hk]
  simp only
  rw [addString_walk_eq, walkAdd_of_lookupPath (k.map (fold t)) t 0 i hlook]
  rw [if_pos hidne]

/-- C4 witness: "her" inserted first, then "his", then a link rebuild; a
renewed insertion of "her" is rejected and the state returned untouched. -/
theorem addString_duplicate_rejected_witness :
    0 < trieHerHis.keywords.length ∧
    (syms "her").map (fold trieHerHis)
      = (trieHerHis.keywords.getD 0 { keyword := [], id := 0 }).keyword.map
          (fold trieHerHis) ∧
    addString trieHerHis (syms "her") true = (some Err.DuplicateKeyword, trieHerHis) :=
  ⟨by decide, by decide,
    addString_duplicate_rejected trieHerHis (syms "her") true
      (Built.links (Built.insert (syms "his") false
        (Built.insert (syms "her") false (Built.base true))))
      0 (by decide) (by decide)⟩

/-! ### C7: case-insensitive folding on both sides -/

theorem tolower_idem (c : Nat) : tolower (tolower c) = tolower c := by
  unfold tolower
  by_cases h : 65 ≤ c ∧ c ≤ 90
  · rw [if_pos h, if_neg (by omega)]
  · rw [if_neg h, if_neg h]

theorem fold_insensitive (t : keyword_trie) (hcs : t.caseSensitive = false) (c : Nat) :
    fold t c = tolower c := by
  unfold fold
  rw [hcs]
  rfl

/-- An insertion walk whose symbols are already folded creates only nodes
with folded edge symbols. -/
theorem walkAdd_folded (l : List Nat) :
    ∀ (t : keyword_trie) (cur : Nat), WS t → cur < t.trieNodes.length →
      (∀ x ∈ l, tolower x = x) →
      (∀ i < t.trieNodes.length, tolower (getNode t i).c = (getNode t i).c) →
      ∀ i < (walkAdd t cur l).1.trieNodes.length,
        tolower (getNode (walkAdd t cur l).1 i).c = (getNode (walkAdd t cur l).1 i).c := by
  induction l with
  | nil => intro t cur hw hc hl hlc; exact hlc
  | cons ch rest ih =>
    intro t cur hw hc hl hlc
    have hstepeq : walkAdd t cur (ch :: rest)
        = walkAdd (addChild t cur ch).1 (addChild t cur ch).2 rest := by
      unfold walkAdd
      simp only [List.foldl_cons]
    rw [hstepeq]
    have hstep := WS_addChild t cur ch hw hc
    refine ih (addChild t cur ch).1 (addChild t cur ch).2 hstep.1 hstep.2.1
      (fun x hx => hl x (List.mem_cons_of_mem _ hx)) ?_
    intro i hi
    cases hf : (getNode t cur).children.find? (fun j => (getNode t j).c = ch) with
    | some j =>
      rw [addChild_found t cur ch j hf] at hi ⊢
      exact hlc i hi
    | none =>
      rw [addChild_new_len t cur ch hf] at hi
      rw [getNode_addChild_new t cur ch hf hc i]
      by_cases hic : i = cur
      · rw [if_pos hic]
        exact hlc cur hc
      · rw [if_neg hic]
        by_cases hilt : i < t.trieNodes.length
        · rw [if_pos hilt]
          exact hlc i hilt
        · rw [if_neg hilt, if_pos (by omega)]
          exact hl ch (List.mem_cons_self _ _)

/-- In every reachable case-insensitive automaton, every stored edge symbol
has been case-folded before the edge was created. -/
theorem Built_insensitive_folded (t : keyword_trie) (hb : Built t)
    (hcs : t.caseSensitive = false) :
    ∀ i < t.trieNodes.length, tolower (getNode t i).c = (getNode t i).c := by
  induction hb with
  | base cs =>
    intro i hi
    change i < 1 at hi
    have : i = 0 := by omega
    subst this
    rfl
  | @insert key flag t0 hb ih =>
    have hw := Built_WS t0 hb
    have hcs0 : t0.caseSensitive = false := by
      have hpres : (addString t0 key flag).2.caseSensitive = t0.caseSensitive := by
        unfold addString
        by_cases hk : key = []
        · rw [if_pos hk]
        · rw [if_neg hk]
          simp only
          rw [addString_walk_eq]
          set w := walkAdd t0 0 (key.map (fold t0)) with hwdef
          have hflags := walkAdd_flags (key.map (fold t0)) t0 0
          rw [← hwdef] at hflags
          by_cases hid : (getNode w.1 w.2).id ≠ -1
          · rw [if_pos hid]
            exact hflags.1
          · rw [if_neg hid]
            by_cases hfl : flag = true
            · rw [if_pos hfl]
              exact (addFailureLinks_shape _).2.2.1.trans hflags.1
            · rw [if_neg hfl]
              exact hflags.1
      rw [hpres] at hcs
      exact hcs
    have ihf := ih hcs0
    unfold addString
    by_cases hk : key = []
    · rw [if_pos hk]
      exact ihf
    · rw [if_neg hk]
      simp only
      rw [addString_walk_eq]
      set w := walkAdd t0 0 (key.map (fold t0)) with hwdef
      have hmap : ∀ x ∈ key.map (fold t0), tolower x = x := by
        intro x hx
        rcases List.mem_map.1 hx with ⟨c0, _, rfl⟩
        rw [fold_insensitive t0 hcs0, tolower_idem]
      have hwalkf := walkAdd_folded (key.map (fold t0)) t0 0 hw hw.1 hmap ihf
      rw [← hwdef] at hwalkf
      by_cases hid : (getNode w.1 w.2).id ≠ -1
      · rw [if_pos hid]
        exact hwalkf
      · rw [if_neg hid]
        have hset : ∀ i < (setNode w.1 w.2
            (fun n => { n with id := (w.1.keywords.length : Int) })).trieNodes.length,
            tolower (getNode (setNode w.1 w.2
              (fun n => { n with id := (w.1.keywords.length : Int) })) i).c
            = (getNode (setNode w.1 w.2
              (fun n => { n with id := (w.1.keywords.length : Int) })) i).c := by
          intro i hi
          rw [length_setNode] at hi
          rw [getNode_setNode]
          by_cases hcnd : w.2 = i ∧ w.2 < w.1.trieNodes.length
          · rw [if_pos hcnd]
            obtain ⟨rfl, _⟩ := hcnd
            exact hwalkf w.2 hi
          · rw [if_neg hcnd]
            exact hwalkf i hi
        by_cases hfl : flag = true
        · rw [if_pos hfl]
          intro i hi
          have hsh := addFailureLinks_shape
            { setNode w.1 w.2 (fun n => { n with id := (w.1.keywords.length : Int) }) with
              keywords := (setNode w.1 w.2
                  (fun n => { n with id := (w.1.keywords.length : Int) })).keywords ++
                [{ keyword := key,
                   id := (setNode w.1 w.2
                     (fun n => { n with id := (w.1.keywords.length : Int) })).keywords.length }] }
          rw [(hsh.2.2.2 i).2.2.1]
          rw [hsh.1] at hi
          exact hset i hi
        · rw [if_neg hfl]
          exact hset
  | @links t0 hb ih =>
    have hcs0 : t0.caseSensitive = false := by
      rw [← (addFailureLinks_shape t0).2.2.1]
      exact hcs
    have ihf := ih hcs0
    intro i hi
    rw [((addFailureLinks_shape t0).2.2.2 i).2.2.1]
    rw [(addFailureLinks_shape t0).1] at hi
    exact ihf i hi

theorem parseLoop_insensitive (t : keyword_trie) (hcs : t.caseSensitive = false) :
    ∀ (text : List Nat) (cur i : Nat),
      parseLoop t text cur i = parseLoop t (text.map tolower) cur i := by
  intro text
  induction text with
  | nil => intro cur i; rfl
  | cons ch rest ih =>
    intro cur i
    simp only [List.map_cons]
    unfold parseLoop
    rw [fold_insensitive t hcs, fold_insensitive t hcs, tolower_idem]
    simp only [ih]

/-- C7: with case sensitivity disabled, (i) every edge symbol stored during
insertion has been case-folded first, (ii) scanning folds every text symbol
before any edge lookup, so the scan of a text equals the scan of its folded
copy, and (iii) the insensitive automaton holding "Her" matches it in
"usheRs" ending at the 'R' (position 4). -/
theorem insensitive_case_folding :
    (∀ (t : keyword_trie), Built t → t.caseSensitive = false →
      ∀ i < t.trieNodes.length, tolower (getNode t i).c = (getNode t i).c) ∧
    (∀ (t : keyword_trie) (text : List Nat), t.caseSensitive = false →
      parseText t text = parseText t (text.map tolower)) ∧
    parseText trieHerInsens (syms "usheRs") =
      [{ keyword := syms "Her", id := 0, start := 2, endPos := 4 }] := by
  refine ⟨Built_insensitive_folded, ?_, by decide⟩
  intro t text hcs
  unfold parseText
  by_cases ht : text = []
  · rw [if_pos ht, if_pos (by rw [ht]; rfl)]
  · rw [if_neg ht, if_neg (by
      intro hmap
      exact ht (List.map_eq_nil_iff.1 hmap))]
    exact parseLoop_insensitive t hcs text 0 0

/-- C7 witness: the folding facts instantiated on the concrete insensitive
automaton holding "Her", with the mixed-case text "uSHeRs". -/
theorem insensitive_case_folding_witness :
    (∀ i < trieHerInsens.trieNodes.length,
      tolower (getNode trieHerInsens i).c = (getNode trieHerInsens i).c) ∧
    parseText trieHerInsens (syms "uSHeRs")
      = parseText trieHerInsens ((syms "uSHeRs").map tolower) :=
  ⟨insensitive_case_folding.1 trieHerInsens
      (Built.insert (syms "Her") true (Built.base false)) rfl,
    insensitive_case_folding.2.1 trieHerInsens (syms "uSHeRs") rfl⟩

/-! ### C10: the set overload inserts in sorted order -/

theorem lexLt_cons_iff (x y : Nat) (xs ys : List Nat) :
    lexLt (x :: xs) (y :: ys) = true ↔ (x < y ∨ (x = y ∧ lexLt xs ys = true)) := by
  show (if x < y then true else if y < x then false else lexLt xs ys) = true
      ↔ (x < y ∨ (x = y ∧ lexLt xs ys = true))
  by_cases h1 : x < y
  · rw [if_pos h1]
    simp [h1]
  · rw [if_neg h1]
    by_cases h2 : y < x
    · rw [if_pos h2]
      constructor
      · intro h; cases h
      · intro h
        rcases h with h | ⟨h, _⟩ <;> omega
    · rw [if_neg h2]
      have hxy : x = y := by omega
      constructor
      · intro h
        exact Or.inr ⟨hxy, h⟩
      · intro h
        rcases h with h | ⟨_, h⟩
        · omega
        · exact h

theorem lexLt_trans : ∀ (a b c : List Nat),
    lexLt a b = true → lexLt b c = true → lexLt a c = true := by
  intro a
  induction a with
  | nil =>
    intro b c hab hbc
    cases b with
    | nil => cases hab
    | cons y ys =>
      cases c with
      | nil => cases hbc
      | cons z zs => rfl
  | cons x xs ih =>
    intro b c hab hbc
    cases b with
    | nil => cases hab
    | cons y ys =>
      cases c with
      | nil => cases hbc
      | cons z zs =>
        rw [lexLt_cons_iff] at hab hbc ⊢
        rcases hab with h1 | ⟨h1, h1l⟩
        · rcases hbc with h2 | ⟨h2, _⟩
          · exact Or.inl (by omega)
          · exact Or.inl (by omega)
        · rcases hbc with h2 | ⟨h2, h2l⟩
          · exact Or.inl (by omega)
          · exact Or.inr ⟨by omega, ih ys zs h1l h2l⟩

theorem mem_setInsert : ∀ (l : List (List Nat)) (k y : List Nat),
    y ∈ setInsert l k → y ∈ l ∨ y = k := by
  intro l
  induction l with
  | nil =>
    intro k y hy
    unfold setInsert at hy
    simp only [List.mem_singleton] at hy
    exact Or.inr hy
  | cons x xs ih =>
    intro k y hy
    unfold setInsert at hy
    by_cases h1 : lexLt k x = true
    · rw [if_pos h1] at hy
      rcases List.mem_cons.1 hy with rfl | hy
      · exact Or.inr rfl
      · exact Or.inl hy
    · rw [if_neg h1] at hy
      by_cases h2 : lexLt x k = true
      · rw [if_pos h2] at hy
        rcases List.mem_cons.1 hy with rfl | hy
        · exact Or.inl (List.mem_cons_self _ _)
        · rcases ih k y hy with hy | hy
          · exact Or.inl (List.mem_cons_of_mem _ hy)
          · exact Or.inr hy
      · rw [if_neg h2] at hy
        exact Or.inl hy

theorem setInsert_pairwise (k : List Nat) :
    ∀ (l : List (List Nat)), List.Pairwise (fun a b => lexLt a b = true) l →
      List.Pairwise (fun a b => lexLt a b = true) (setInsert l k) := by
  intro l
  induction l with
  | nil =>
    intro _
    exact List.pairwise_singleton _ _
  | cons x xs ih =>
    intro h
    rw [List.pairwise_cons] at h
    unfold setInsert
    by_cases h1 : lexLt k x = true
    · rw [if_pos h1]
      refine List.Pairwise.cons ?_ (List.Pairwise.cons h.1 h.2)
      intro y hy
      rcases List.mem_cons.1 hy with rfl | hy
      · exact h1
      · exact lexLt_trans k x y h1 (h.1 y hy)
    · rw [if_neg h1]
      by_cases h2 : lexLt x k = true
      · rw [if_pos h2]
        refine List.Pairwise.cons ?_ (ih h.2)
        intro y hy
        rcases mem_setInsert xs k y hy with hy | rfl
        · exact h.1 y hy
        · exact h2
      · rw [if_neg h2]
        exact List.Pairwise.cons h.1 h.2

theorem setOfList_sorted (l : List (List Nat)) :
    List.Pairwise (fun a b => lexLt a b = true) (setOfList l) := by
  unfold setOfList
  have : ∀ (acc : List (List Nat)), List.Pairwise (fun a b => lexLt a b = true) acc →
      List.Pairwise (fun a b => lexLt a b = true) (l.foldl setInsert acc) := by
    induction l with
    | nil => intro acc h; exact h
    | cons k ks ih =>
      intro acc h
      exact ih _ (setInsert_pairwise k acc h)
  exact this [] List.Pairwise.nil

/-- A successful `addString(key, false)` call appends exactly the keyword
record (original text, next identifier) when the key is non-empty, and
nothing otherwise. -/
theorem addString_ok_keywords (t : keyword_trie) (k : List Nat) (t' : keyword_trie)
    (h : addString t k false = (none, t')) :
    t'.keywords = if k = [] then t.keywords
      else t.keywords ++ [{ keyword := k, id := t.keywords.length }] := by
  unfold addString at h
  by_cases hk : k = []
  · rw [if_pos hk] at h
    injection h with _ h2
    rw [if_pos hk, ← h2]
  · rw [if_neg hk] at h
    simp only at h
    rw [addString_walk_eq] at h
    set w := walkAdd t 0 (k.map (fold t)) with hwdef
    by_cases hid : (getNode w.1 w.2).id ≠ -1
    · rw [if_pos hid] at h
      cases h
    · rw [if_neg hid, if_neg (by simp)] at h
      injection h with _ h2
      rw [if_neg hk, ← h2]
      have hkw : w.1.keywords = t.keywords := by
        have := walkAdd_flags (k.map (fold t)) t 0
        rw [← hwdef] at this
        exact this.2
      show (setNode w.1 w.2 (fun n => { n with id := (w.1.keywords.length : Int) })).keywords ++
          [{ keyword := k,
             id := (setNode w.1 w.2
               (fun n => { n with id := (w.1.keywords.length : Int) })).keywords.length }]
        = t.keywords ++ [{ keyword := k, id := t.keywords.length }]
      rw [keywords_setNode, hkw]

theorem addStringsLoop_keywords_map (ks : List (List Nat)) :
    ∀ (t T : keyword_trie), addStringsLoop t ks = (none, T) →
      T.keywords.map (fun r => r.keyword)
        = t.keywords.map (fun r => r.keyword) ++ ks.filter (fun k => ¬(k = [])) := by
  induction ks with
  | nil =>
    intro t T h
    injection h with _ h2
    rw [← h2]
    simp
  | cons k ks ih =>
    intro t T h
    unfold addStringsLoop at h
    cases hres : addString t k false with
    | mk e t' =>
      rw [hres] at h
      cases e with
      | some e => cases h
      | none =>
        have hkw := addString_ok_keywords t k t' hres
        have hih := ih t' T h
        by_cases hk : k = []
        · rw [if_pos hk] at hkw
          rw [hih, hkw]
          simp [hk]
        · rw [if_neg hk] at hkw
          rw [hih, hkw]
          simp [hk]

theorem addStringsLoop_ids (ks : List (List Nat)) :
    ∀ (t T : keyword_trie), addStringsLoop t ks = (none, T) →
      (∀ n < t.keywords.length,
        (t.keywords.getD n { keyword := [], id := 0 }).id = n) →
      (∀ n < T.keywords.length,
        (T.keywords.getD n { keyword := [], id := 0 }).id = n) := by
  induction ks with
  | nil =>
    intro t T h hids
    injection h with _ h2
    rw [← h2]
    exact hids
  | cons k ks ih =>
    intro t T h hids
    unfold addStringsLoop at h
    cases hres : addString t k false with
    | mk e t' =>
      rw [hres] at h
      cases e with
      | some e => cases h
      | none =>
        have hkw := addString_ok_keywords t k t' hres
        refine ih t' T h ?_
        by_cases hk : k = []
        · rw [if_pos hk] at hkw
          rw [hkw]
          exact hids
        · rw [if_neg hk] at hkw
          rw [hkw]
          intro n hn
          rw [List.length_append, List.length_singleton] at hn
          by_cases hlt : n < t.keywords.length
          · rw [List.getD_eq_getElem?_getD, List.getElem?_append, if_pos hlt,
              ← List.getD_eq_getElem?_getD]
            exact hids n hlt
          · have hneq : n = t.keywords.length := by omega
            subst hneq
            rw [List.getD_eq_getElem?_getD, List.getElem?_append,
              if_neg (lt_irrefl _)]
            simp

/-- C10: the `std::set` overload of `addString` inserts the keys in the
set's sorted iteration order, so the sequential identifiers assigned during
the batch follow the lexicographic order of the keywords: in any successful
batch from an empty automaton the keyword list is exactly the sorted unique
non-empty keys, identifiers coincide with list positions, and the list is
lexicographically sorted.  In particular, inserting {"b","a"} in that caller
order yields a ↦ 0, b ↦ 1, not the caller's order. -/
theorem addStringSet_sorted_ids :
    (∀ (keys : List (List Nat)) (T : keyword_trie),
      addStringSet {} keys = (none, T) →
      T.keywords.map (fun r => r.keyword)
          = (setOfList keys).filter (fun k => ¬(k = [])) ∧
      (∀ n < T.keywords.length,
        (T.keywords.getD n { keyword := [], id := 0 }).id = n) ∧
      List.Pairwise (fun a b => lexLt a b = true)
        (T.keywords.map (fun r => r.keyword))) ∧
    (addStringSet {} [syms "b", syms "a"]).2.keywords.map (fun r => (r.keyword, r.id))
      = [(syms "a", 0), (syms "b", 1)] := by
  constructor
  · intro keys T h
    unfold addStringSet at h
    cases hloop : addStringsLoop ({} : keyword_trie) (setOfList keys) with
    | mk e t' =>
      rw [hloop] at h
      cases e with
      | some e => cases h
      | none =>
        injection h with _ h2
        have hmap := addStringsLoop_keywords_map (setOfList keys) {} t' hloop
        have hids := addStringsLoop_ids (setOfList keys) {} t' hloop
          (by intro n hn; cases hn)
        have hsh := addFailureLinks_shape t'
        have hkw : T.keywords = t'.keywords := by rw [← h2, hsh.2.1]
        refine ⟨?_, ?_, ?_⟩
        · rw [hkw, hmap]
          rfl
        · rw [hkw]
          exact hids
        · rw [hkw, hmap]
          show List.Pairwise _ ([] ++ (setOfList keys).filter (fun k => ¬(k = [])))
          rw [List.nil_append]
          exact List.Pairwise.filter _ (setOfList_sorted keys)
  · decide

/-- C10 witness: the general statement applied to the caller-ordered list
["b", "a"]. -/
theorem addStringSet_sorted_ids_witness :
    (addStringSet {} [syms "b", syms "a"]).2.keywords.map (fun r => r.keyword)
        = (setOfList [syms "b", syms "a"]).filter (fun k => ¬(k = [])) ∧
    (∀ n < (addStringSet {} [syms "b", syms "a"]).2.keywords.length,
      ((addStringSet {} [syms "b", syms "a"]).2.keywords.getD n
        { keyword := [], id := 0 }).id = n) ∧
    List.Pairwise (fun a b => lexLt a b = true)
      ((addStringSet {} [syms "b", syms "a"]).2.keywords.map (fun r => r.keyword)) := by
  have h : (addStringSet ({} : keyword_trie) [syms "b", syms "a"]).1 = none := by decide
  exact addStringSet_sorted_ids.1 [syms "b", syms "a"]
    (addStringSet {} [syms "b", syms "a"]).2 (by rw [← h])

/-! ### Root paths: basic lemmas -/

theorem suffix_append_right {l1 l2 l3 : List Nat} (h : l1 <:+ l2) :
    l1 ++ l3 <:+ l2 ++ l3 := by
  obtain ⟨p, hp⟩ := h
  exact ⟨p, by rw [← List.append_assoc, hp]⟩

theorem path_root (t : keyword_trie) (hw : WS t) : path t 0 = [] := by
  unfold path
  rw [hw.2.1.1]
  rfl

theorem path_parent (t : keyword_trie) (hw : WS t) (i : Nat)
    (hi : i < t.trieNodes.length) (h0 : i ≠ 0) :
    path t i = path t (getNode t i).parent ++ [(getNode t i).c] := by
  have hd := (hw.2.2.2 i hi h0).2.1
  unfold path
  rw [hd]
  simp only [pathAux]
  rw [if_neg h0]

theorem path_child (t : keyword_trie) (hw : WS t) (i j : Nat)
    (hi : i < t.trieNodes.length) (hj : j ∈ (getNode t i).children) :
    path t j = path t i ++ [(getNode t j).c] := by
  have hjf := (hw.2.2.1 i hi).2 j hj
  have hj0 : j ≠ 0 := by omega
  rw [path_parent t hw j hjf.1 hj0, hjf.2.2.1]

theorem pathAux_fields_congr (t t' : keyword_trie)
    (hf : ∀ k, (getNode t' k).parent = (getNode t k).parent ∧
      (getNode t' k).c = (getNode t k).c) :
    ∀ (f i : Nat), pathAux t' f i = pathAux t f i := by
  intro f
  induction f with
  | zero => intro i; rfl
  | succ f ih =>
    intro i
    simp only [pathAux]
    rw [(hf i).1, (hf i).2, ih]

theorem path_fields_congr (t t' : keyword_trie)
    (hf : ∀ k, (getNode t' k).parent = (getNode t k).parent ∧
      (getNode t' k).c = (getNode t k).c ∧
      (getNode t' k).depth = (getNode t k).depth) :
    ∀ i, path t' i = path t i := by
  intro i
  unfold path
  rw [(hf i).2.2, pathAux_fields_congr t t' (fun k => ⟨(hf k).1, (hf k).2.1⟩)]

/-- Root paths of existing nodes are unaffected by a fresh `addChild`. -/
theorem pathAux_addChild_new (t : keyword_trie) (cur ch : Nat)
    (hf : (getNode t cur).children.find? (fun j => (getNode t j).c = ch) = none)
    (hc : cur < t.trieNodes.length) (hw : WS t) :
    ∀ (f i : Nat), i < t.trieNodes.length →
      pathAux (addChild t cur ch).1 f i = pathAux t f i := by
  intro f
  induction f with
  | zero => intro i _; rfl
  | succ f ih =>
    intro i hi
    simp only [pathAux]
    by_cases h0 : i = 0
    · rw [if_pos h0, if_pos h0]
    · rw [if_neg h0, if_neg h0]
      have hflds := fields_addChild_new t cur ch hf hc i hi
      rw [hflds.2.1, hflds.2.2.2.2.2]
      have hp : (getNode t i).parent < t.trieNodes.length := by
        have := (hw.2.2.2 i hi h0).1
        omega
      rw [ih (getNode t i).parent hp]

theorem path_addChild_new (t : keyword_trie) (cur ch : Nat)
    (hf : (getNode t cur).children.find? (fun j => (getNode t j).c = ch) = none)
    (hc : cur < t.trieNodes.length) (hw : WS t) (i : Nat)
    (hi : i < t.trieNodes.length) :
    path (addChild t cur ch).1 i = path t i := by
  unfold path
  rw [(fields_addChild_new t cur ch hf hc i hi).1,
    pathAux_addChild_new t cur ch hf hc hw _ i hi]

/-- The path of the node reached by a lookup extends the start node's path
by the looked-up symbols. -/
theorem lookupPath_path (l : List Nat) :
    ∀ (t : keyword_trie) (cur j : Nat), WS t → cur < t.trieNodes.length →
      lookupPath t l cur = some j →
      j < t.trieNodes.length ∧ path t j = path t cur ++ l := by
  induction l with
  | nil =>
    intro t cur j hw hc h
    unfold lookupPath at h
    injection h with h
    subst h
    exact ⟨hc, by simp⟩
  | cons ch rest ih =>
    intro t cur j hw hc h
    unfold lookupPath at h
    cases hfind : (getNode t cur).children.find? (fun a => (getNode t a).c = ch) with
    | none => rw [hfind] at h; cases h
    | some j0 =>
      rw [hfind] at h
      have hj0 := find?_child_c hfind
      have hj0f := (hw.2.2.1 cur hc).2 j0 hj0.1
      have hrec := ih t j0 j hw hj0f.1 h
      refine ⟨hrec.1, ?_⟩
      rw [hrec.2, path_child t hw cur j0 hc hj0.1, hj0.2]
      simp

/-! ### WK preservation -/

theorem WK_empty (cs : Bool) : WK { caseSensitive := cs } := by
  refine ⟨?_, ?_, ?_⟩
  · intro i hi
    change i < 1 at hi
    have h0 : i = 0 := by omega
    subst h0
    exact Or.inl rfl
  · intro i hi hi0
    change i < 1 at hi
    omega
  · intro i hi hid
    change i < 1 at hi
    have h0 : i = 0 := by omega
    subst h0
    exact absurd rfl hid

theorem WK_addChild (t : keyword_trie) (cur ch : Nat) (hw : WS t) (hk : WK t)
    (hc : cur < t.trieNodes.length) : WK (addChild t cur ch).1 := by
  cases hf : (getNode t cur).children.find? (fun j => (getNode t j).c = ch) with
  | some j =>
    rw [addChild_found t cur ch j hf]
    exact hk
  | none =>
    obtain ⟨hK1, hK2, hK3⟩ := hk
    have hlen := addChild_new_len t cur ch hf
    have hflds := fields_addChild_new t cur ch hf hc
    have hpth := path_addChild_new t cur ch hf hc hw
    have hnew : getNode (addChild t cur ch).1 t.trieNodes.length = newNode t cur ch := by
      rw [getNode_addChild_new t cur ch hf hc]
      rw [if_neg (by omega), if_neg (by omega), if_pos rfl]
    have hfold : fold (addChild t cur ch).1 = fold t := by
      funext c0
      unfold fold
      rw [addChild_new_cs t cur ch hf]
    have hkw := addChild_new_keywords t cur ch hf
    have hroot : path (addChild t cur ch).1 0 = [] :=
      path_root _ (WS_addChild t cur ch hw hc).1
    refine ⟨?_, ?_, ?_⟩
    · intro i hi
      rw [hlen] at hi
      by_cases hilt : i < t.trieNodes.length
      · rw [(hflds i hilt).2.2.2.1]
        rcases hK1 i hilt with h | h
        · exact Or.inl h
        · have houtlt : (getNode t i).output < t.trieNodes.length := by
            by_cases h0 : i = 0
            · rw [h0, hw.2.1.2.2.2.1]
              omega
            · exact (hw.2.2.2 i hilt h0).2.2.2.2
          rw [(hflds _ houtlt).2.2.2.2.1]
          exact Or.inr h
      · have hieq : i = t.trieNodes.length := by omega
        subst hieq
        rw [hnew]
        exact Or.inl rfl
    · intro i hi hi0
      rw [hlen] at hi
      by_cases hilt : i < t.trieNodes.length
      · have hold := hK2 i hilt hi0
        have hwd := hw.2.2.2 i hilt hi0
        rw [(hflds i hilt).2.2.1, (hflds i hilt).2.2.2.1, hpth i hilt,
          hpth _ hwd.2.2.1, hpth _ hwd.2.2.2.2]
        exact hold
      · have hieq : i = t.trieNodes.length := by omega
        subst hieq
        rw [hnew]
        show path _ 0 <:+ _ ∧ path _ 0 <:+ _
        rw [hroot]
        exact ⟨List.nil_suffix, List.nil_suffix⟩
    · intro i hi hid
      rw [hlen] at hi
      by_cases hilt : i < t.trieNodes.length
      · rw [(hflds i hilt).2.2.2.2.1] at hid ⊢
        have hold := hK3 i hilt hid
        rw [hpth i hilt, hkw, hfold]
        exact hold
      · have hieq : i = t.trieNodes.length := by omega
        subst hieq
        rw [hnew] at hid
        exact absurd rfl hid

theorem walkAdd_WK (l : List Nat) :
    ∀ (t : keyword_trie) (cur : Nat), WS t → WK t → cur < t.trieNodes.length →
      WK (walkAdd t cur l).1 := by
  induction l with
  | nil => intro t cur _ hk _; exact hk
  | cons ch rest ih =>
    intro t cur hw hk hc
    have hstepeq : walkAdd t cur (ch :: rest)
        = walkAdd (addChild t cur ch).1 (addChild t cur ch).2 rest := by
      unfold walkAdd
      simp only [List.foldl_cons]
    rw [hstepeq]
    have hstep := WS_addChild t cur ch hw hc
    exact ih _ _ hstep.1 (WK_addChild t cur ch hw hk hc) hstep.2.1

theorem WS_depth_le (t : keyword_trie) (hw : WS t) :
    ∀ i, i < t.trieNodes.length → (getNode t i).depth ≤ i := by
  intro i
  induction i using Nat.strong_induction_on with
  | _ i ih =>
    intro hi
    by_cases h0 : i = 0
    · subst h0
      rw [hw.2.1.1]
    · have hd := hw.2.2.2 i hi h0
      have := ih (getNode t i).parent hd.1 (by omega)
      omega

/-- The output walk stays in range, stops at the root or a keyword node,
and lands on a node whose path is a suffix of the start node's path. -/
theorem walkOut_WK (t : keyword_trie) (hw : WS t) (hk : WK t) :
    ∀ (f i : Nat), i < t.trieNodes.length → (getNode t i).depth < f →
      walkOut t f i < t.trieNodes.length ∧
      (walkOut t f i = 0 ∨ (getNode t (walkOut t f i)).id ≠ -1) ∧
      path t (walkOut t f i) <:+ path t i := by
  intro f
  induction f with
  | zero => intro i hi hd; omega
  | succ f ih =>
    intro i hi hd
    unfold walkOut
    by_cases h0 : i = 0
    · rw [if_pos h0]
      subst h0
      exact ⟨hw.1, Or.inl rfl, List.suffix_refl _⟩
    · rw [if_neg h0]
      by_cases hid : (getNode t i).id ≠ -1
      · rw [if_pos hid]
        exact ⟨hi, Or.inr hid, List.suffix_refl _⟩
      · rw [if_neg hid]
        have hD := hw.2.2.2 i hi h0
        have hrec := ih (getNode t i).failure hD.2.2.1 (by omega)
        exact ⟨hrec.1, hrec.2.1,
          List.IsSuffix.trans hrec.2.2 (hk.2.1 i hi h0).1⟩

theorem bfsStep_oor (t : keyword_trie) (n : Nat) (hn : ¬n < t.trieNodes.length) :
    bfsStep t n = t := by
  have hget : getNode t n = {} := getNode_ge t n (by omega)
  unfold bfsStep
  rw [hget]
  simp only
  rw [if_neg (by omega)]
  have hset : ∀ (v : Nat), setNode t n (fun m => { m with output := v }) = t := by
    intro v
    unfold setNode
    rw [List.set_eq_of_length_le (by omega)]
  rw [hget]
  exact hset _

theorem WS_set_failure (t : keyword_trie) (n j : Nat) (hw : WS t)
    (hn : n < t.trieNodes.length) (hn0 : n ≠ 0) (hjl : j < t.trieNodes.length)
    (hjd : (getNode t j).depth < (getNode t n).depth) :
    WS (setNode t n (fun m => { m with failure := j })) := by
  obtain ⟨hA, hB, hC, hD⟩ := hw
  have hg : ∀ k, getNode (setNode t n (fun m => { m with failure := j })) k
      = if n = k ∧ n < t.trieNodes.length then { getNode t n with failure := j }
        else getNode t k := fun k => getNode_setNode t n _ k
  have hfld : ∀ k, ((getNode (setNode t n (fun m => { m with failure := j })) k).depth
        = (getNode t k).depth ∧
      (getNode (setNode t n (fun m => { m with failure := j })) k).parent
        = (getNode t k).parent ∧
      (getNode (setNode t n (fun m => { m with failure := j })) k).output
        = (getNode t k).output ∧
      (getNode (setNode t n (fun m => { m with failure := j })) k).id
        = (getNode t k).id ∧
      (getNode (setNode t n (fun m => { m with failure := j })) k).children
        = (getNode t k).children) := by
    intro k
    rw [hg k]
    by_cases hcnd : n = k ∧ n < t.trieNodes.length
    · rw [if_pos hcnd]
      obtain ⟨rfl, _⟩ := hcnd
      exact ⟨rfl, rfl, rfl, rfl, rfl⟩
    · rw [if_neg hcnd]
      exact ⟨rfl, rfl, rfl, rfl, rfl⟩
  have hflf : ∀ k, (getNode (setNode t n (fun m => { m with failure := j })) k).failure
      = if k = n then j else (getNode t k).failure := by
    intro k
    rw [hg k]
    by_cases hcnd : k = n
    · subst hcnd; rw [if_pos ⟨rfl, hn⟩, if_pos rfl]
    · rw [if_neg (by intro hh; exact hcnd hh.1.symm), if_neg hcnd]
  refine ⟨?_, ?_, ?_, ?_⟩
  · rw [length_setNode]; exact hA
  · have h0 := hfld 0
    rw [h0.1, h0.2.1, h0.2.2.1, h0.2.2.2.1, hflf 0, if_neg (Ne.symm hn0)]
    exact hB
  · intro i hi
    rw [length_setNode] at hi
    rw [(hfld i).2.2.2.2]
    refine ⟨(hC i hi).1, ?_⟩
    intro a ha
    have haold := (hC i hi).2 a ha
    rw [(hfld a).2.1, (hfld a).1, (hfld i).1, length_setNode]
    exact haold
  · intro i hi hi0
    rw [length_setNode] at hi
    have hold := hD i hi hi0
    rw [(hfld i).1, (hfld i).2.1, (hfld i).2.2.1,
      (hfld (getNode t i).parent).1, hflf i, length_setNode]
    by_cases hin : i = n
    · subst hin
      rw [if_pos rfl, (hfld j).1]
      exact ⟨hold.1, hold.2.1, hjl, hjd, hold.2.2.2.2⟩
    · rw [if_neg hin, (hfld (getNode t i).failure).1]
      exact hold

theorem WK_set_failure (t : keyword_trie) (n j : Nat) (hw : WS t) (hk : WK t)
    (hn : n < t.trieNodes.length) (hn0 : n ≠ 0) (hjl : j < t.trieNodes.length)
    (hsuffix : path t j <:+ path t n) :
    WK (setNode t n (fun m => { m with failure := j })) := by
  obtain ⟨hK1, hK2, hK3⟩ := hk
  have hg : ∀ k, getNode (setNode t n (fun m => { m with failure := j })) k
      = if n = k ∧ n < t.trieNodes.length then { getNode t n with failure := j }
        else getNode t k := fun k => getNode_setNode t n _ k
  have hfld : ∀ k, ((getNode (setNode t n (fun m => { m with failure := j })) k).depth
        = (getNode t k).depth ∧
      (getNode (setNode t n (fun m => { m with failure := j })) k).parent
        = (getNode t k).parent ∧
      (getNode (setNode t n (fun m => { m with failure := j })) k).output
        = (getNode t k).output ∧
      (getNode (setNode t n (fun m => { m with failure := j })) k).id
        = (getNode t k).id ∧
      (getNode (setNode t n (fun m => { m with failure := j })) k).c
        = (getNode t k).c) := by
    intro k
    rw [hg k]
    by_cases hcnd : n = k ∧ n < t.trieNodes.length
    · rw [if_pos hcnd]
      obtain ⟨rfl, _⟩ := hcnd
      exact ⟨rfl, rfl, rfl, rfl, rfl⟩
    · rw [if_neg hcnd]
      exact ⟨rfl, rfl, rfl, rfl, rfl⟩
  have hflf : ∀ k, (getNode (setNode t n (fun m => { m with failure := j })) k).failure
      = if k = n then j else (getNode t k).failure := by
    intro k
    rw [hg k]
    by_cases hcnd : k = n
    · subst hcnd; rw [if_pos ⟨rfl, hn⟩, if_pos rfl]
    · rw [if_neg (by intro hh; exact hcnd hh.1.symm), if_neg hcnd]
  have hpath : ∀ i, path (setNode t n (fun m => { m with failure := j })) i = path t i :=
    path_fields_congr t _ (fun k => ⟨(hfld k).2.1, (hfld k).2.2.2.2, (hfld k).1⟩)
  have hfold : fold (setNode t n (fun m => { m with failure := j })) = fold t := by
    funext c0
    unfold fold
    rw [caseSensitive_setNode]
  refine ⟨?_, ?_, ?_⟩
  · intro i hi
    rw [length_setNode] at hi
    rw [(hfld i).2.2.1, (hfld _).2.2.2.1]
    exact hK1 i hi
  · intro i hi hi0
    rw [length_setNode] at hi
    rw [hflf i, (hfld i).2.2.1, hpath, hpath, hpath]
    by_cases hin : i = n
    · subst hin
      rw [if_pos rfl]
      exact ⟨hsuffix, (hK2 i hi hi0).2⟩
    · rw [if_neg hin]
      exact hK2 i hi hi0
  · intro i hi hid
    rw [length_setNode] at hi
    rw [(hfld i).2.2.2.1] at hid ⊢
    have hold := hK3 i hi hid
    rw [hpath, keywords_setNode, hfold]
    exact hold

theorem WK_bfsStep (t : keyword_trie) (n : Nat) (hw : WS t) (hk : WK t) :
    WK (bfsStep t n) := by
  by_cases hn : n < t.trieNodes.length
  case neg =>
    rw [bfsStep_oor t n hn]
    exact hk
  case pos =>
    have hstep1 : WS (if ((getNode t (getNode t n).failure).depth : Int)
          < ((getNode t n).depth : Int) - 1 then
        match scanChildren t
            (getNode t (getNode t (getNode t n).parent).failure).children (getNode t n).c with
        | some j => setNode t n (fun m => { m with failure := j })
        | none => t
      else t) ∧ WK (if ((getNode t (getNode t n).failure).depth : Int)
          < ((getNode t n).depth : Int) - 1 then
        match scanChildren t
            (getNode t (getNode t (getNode t n).parent).failure).children (getNode t n).c with
        | some j => setNode t n (fun m => { m with failure := j })
        | none => t
      else t) := by
      by_cases hguard : ((getNode t (getNode t n).failure).depth : Int)
          < ((getNode t n).depth : Int) - 1
      case neg => rw [if_neg hguard]; exact ⟨hw, hk⟩
      case pos =>
        rw [if_pos hguard]
        cases hscan : scanChildren t
            (getNode t (getNode t (getNode t n).parent).failure).children (getNode t n).c with
        | none => exact ⟨hw, hk⟩
        | some j =>
          have hdn : 2 ≤ (getNode t n).depth := by omega
          have hn0 : n ≠ 0 := by
            intro h0
            rw [h0, hw.2.1.1] at hdn
            omega
          have hp := hw.2.2.2 n hn hn0
          have hpn : (getNode t n).parent < t.trieNodes.length := by omega
          have hp0 : (getNode t n).parent ≠ 0 := by
            intro h0
            rw [h0, hw.2.1.1] at hp
            omega
          have hq := hw.2.2.2 (getNode t n).parent hpn hp0
          have hqlt : (getNode t (getNode t n).parent).failure < t.trieNodes.length :=
            hq.2.2.1
          have hmem := scanChildren_eq_some hscan
          have hj := (hw.2.2.1 _ hqlt).2 j hmem.1
          have hjd : (getNode t j).depth < (getNode t n).depth := by omega
          have hpj : path t j
              = path t (getNode t (getNode t n).parent).failure ++ [(getNode t n).c] := by
            rw [path_child t hw _ j hqlt hmem.1, hmem.2]
          have hqs : path t (getNode t (getNode t n).parent).failure
              <:+ path t (getNode t n).parent := (hk.2.1 _ hpn hp0).1
          have hpn2 : path t n = path t (getNode t n).parent ++ [(getNode t n).c] :=
            path_parent t hw n hn hn0
          have hsuffix : path t j <:+ path t n := by
            rw [hpj, hpn2]
            exact suffix_append_right hqs
          exact ⟨WS_set_failure t n j hw hn hn0 hj.1 hjd,
            WK_set_failure t n j hw hk hn hn0 hj.1 hsuffix⟩
    set t1 := (if ((getNode t (getNode t n).failure).depth : Int)
          < ((getNode t n).depth : Int) - 1 then
        match scanChildren t
            (getNode t (getNode t (getNode t n).parent).failure).children (getNode t n).c with
        | some j => setNode t n (fun m => { m with failure := j })
        | none => t
      else t) with ht1
    obtain ⟨hw1, hk1⟩ := hstep1
    have hlen1 : t1.trieNodes.length = t.trieNodes.length := by
      rw [ht1]
      by_cases hguard : ((getNode t (getNode t n).failure).depth : Int)
          < ((getNode t n).depth : Int) - 1
      · rw [if_pos hguard]
        cases hscan : scanChildren t
            (getNode t (getNode t (getNode t n).parent).failure).children (getNode t n).c with
        | none => rfl
        | some j => rw [length_setNode]
      · rw [if_neg hguard]
    have hn1 : n < t1.trieNodes.length := by omega
    have hi0 : (getNode t1 n).failure < t1.trieNodes.length := by
      by_cases hn0 : n = 0
      · rw [hn0, hw1.2.1.2.2.1]
        exact hw1.1
      · exact (hw1.2.2.2 n hn1 hn0).2.2.1
    have hwalk := walkOut_WK t1 hw1 hk1 t1.trieNodes.length (getNode t1 n).failure hi0
      (by have := WS_depth_le t1 hw1 _ hi0; omega)
    show WK (setNode t1 n (fun m => { m with output := walkOut t1 t1.trieNodes.length (getNode t1 n).failure }))
    set v := walkOut t1 t1.trieNodes.length (getNode t1 n).failure with hv
    obtain ⟨hK1, hK2, hK3⟩ := hk1
    have hg : ∀ k, getNode (setNode t1 n (fun m => { m with output := v })) k
        = if n = k ∧ n < t1.trieNodes.length then { getNode t1 n with output := v }
          else getNode t1 k := fun k => getNode_setNode t1 n _ k
    have hfld : ∀ k, ((getNode (setNode t1 n (fun m => { m with output := v })) k).depth
          = (getNode t1 k).depth ∧
        (getNode (setNode t1 n (fun m => { m with output := v })) k).parent
          = (getNode t1 k).parent ∧
        (getNode (setNode t1 n (fun m => { m with output := v })) k).failure
          = (getNode t1 k).failure ∧
        (getNode (setNode t1 n (fun m => { m with output := v })) k).id
          = (getNode t1 k).id ∧
        (getNode (setNode t1 n (fun m => { m with output := v })) k).c
          = (getNode t1 k).c) := by
      intro k
      rw [hg k]
      by_cases hcnd : n = k ∧ n < t1.trieNodes.length
      · rw [if_pos hcnd]
        obtain ⟨rfl, _⟩ := hcnd
        exact ⟨rfl, rfl, rfl, rfl, rfl⟩
      · rw [if_neg hcnd]
        exact ⟨rfl, rfl, rfl, rfl, rfl⟩
    have hflo : ∀ k, (getNode (setNode t1 n (fun m => { m with output := v })) k).output
        = if k = n then v else (getNode t1 k).output := by
      intro k
      rw [hg k]
      by_cases hcnd : k = n
      · subst hcnd; rw [if_pos ⟨rfl, by omega⟩, if_pos rfl]
      · rw [if_neg (by intro hh; exact hcnd hh.1.symm), if_neg hcnd]
    have hpath : ∀ i, path (setNode t1 n (fun m => { m with output := v })) i
        = path t1 i :=
      path_fields_congr t1 _ (fun k => ⟨(hfld k).2.1, (hfld k).2.2.2.2, (hfld k).1⟩)
    have hfold2 : fold (setNode t1 n (fun m => { m with output := v })) = fold t1 := by
      funext c0
      unfold fold
      rw [caseSensitive_setNode]
    refine ⟨?_, ?_, ?_⟩
    · intro ii hii
      rw [length_setNode] at hii
      rw [hflo ii, (hfld _).2.2.2.1]
      by_cases hin : ii = n
      · rw [if_pos hin]
        exact hwalk.2.1
      · rw [if_neg hin]
        exact hK1 ii hii
    · intro ii hii hii0
      rw [length_setNode] at hii
      rw [(hfld ii).2.2.1, hflo ii, hpath, hpath, hpath]
      by_cases hin : ii = n
      · rw [if_pos hin]
        refine ⟨(hK2 ii hii hii0).1, ?_⟩
        rw [hin]
        have hKn2 := (hK2 n (by omega) (by rw [← hin]; exact hii0)).1
        exact List.IsSuffix.trans hwalk.2.2 hKn2
      · rw [if_neg hin]
        exact hK2 ii hii hii0
    · intro ii hii hid
      rw [length_setNode] at hii
      rw [(hfld ii).2.2.2.1] at hid ⊢
      have hold := hK3 ii hii hid
      rw [hpath, keywords_setNode, hfold2]
      exact hold

theorem WK_bfsLoop (f : Nat) :
    ∀ (t : keyword_trie) (q : List Nat), WS t → WK t → WK (bfsLoop t f q) := by
  induction f with
  | zero => intro t q _ hk; cases q <;> exact hk
  | succ f ih =>
    intro t q hw hk
    cases q with
    | nil => exact hk
    | cons n rest =>
      exact ih (bfsStep t n) _ (WS_bfsStep t n hw) (WK_bfsStep t n hw hk)

theorem WK_addFailureLinks (t : keyword_trie) (hw : WS t) (hk : WK t) :
    WK (addFailureLinks t) :=
  WK_bfsLoop _ t [0] hw hk

/-- Assigning the next keyword identifier to a node whose path spells the
folded keyword, and appending the keyword record, preserves `WK`. -/
theorem WK_assign (t : keyword_trie) (cur : Nat) (key : List Nat) (hw : WS t)
    (hk : WK t) (hc : cur < t.trieNodes.length)
    (hpath : path t cur = key.map (fold t)) :
    WK { setNode t cur (fun n => { n with id := (t.keywords.length : Int) }) with
         keywords := (setNode t cur
             (fun n => { n with id := (t.keywords.length : Int) })).keywords ++
           [{ keyword := key,
              id := (setNode t cur
                (fun n => { n with id := (t.keywords.length : Int) })).keywords.length }] } := by
  obtain ⟨hK1, hK2, hK3⟩ := hk
  set T2 : keyword_trie :=
    { setNode t cur (fun n => { n with id := (t.keywords.length : Int) }) with
      keywords := (setNode t cur
          (fun n => { n with id := (t.keywords.length : Int) })).keywords ++
        [{ keyword := key,
           id := (setNode t cur
             (fun n => { n with id := (t.keywords.length : Int) })).keywords.length }] }
    with hT2
  have hgetT2 : ∀ k, getNode T2 k
      = getNode (setNode t cur (fun n => { n with id := (t.keywords.length : Int) })) k :=
    fun k => rfl
  have hg : ∀ k, getNode T2 k
      = if cur = k ∧ cur < t.trieNodes.length
        then { getNode t cur with id := (t.keywords.length : Int) }
        else getNode t k := by
    intro k
    rw [hgetT2 k, getNode_setNode]
  have hfld : ∀ k, ((getNode T2 k).depth = (getNode t k).depth ∧
      (getNode T2 k).parent = (getNode t k).parent ∧
      (getNode T2 k).failure = (getNode t k).failure ∧
      (getNode T2 k).output = (getNode t k).output ∧
      (getNode T2 k).c = (getNode t k).c) := by
    intro k
    rw [hg k]
    by_cases hcnd : cur = k ∧ cur < t.trieNodes.length
    · rw [if_pos hcnd]
      obtain ⟨rfl, _⟩ := hcnd
      exact ⟨rfl, rfl, rfl, rfl, rfl⟩
    · rw [if_neg hcnd]
      exact ⟨rfl, rfl, rfl, rfl, rfl⟩
  have hgid : ∀ k, (getNode T2 k).id
      = if k = cur then (t.keywords.length : Int) else (getNode t k).id := by
    intro k
    rw [hg k]
    by_cases hcnd : k = cur
    · subst hcnd; rw [if_pos ⟨rfl, hc⟩, if_pos rfl]
    · rw [if_neg (by intro hh; exact hcnd hh.1.symm), if_neg hcnd]
  have hlenT2 : T2.trieNodes.length = t.trieNodes.length :=
    length_setNode t cur (fun n => { n with id := (t.keywords.length : Int) })
  have hkwT2 : T2.keywords = t.keywords ++ [{ keyword := key, id := t.keywords.length }] := by
    have h1 : (setNode t cur
        (fun n => { n with id := (t.keywords.length : Int) })).keywords = t.keywords :=
      keywords_setNode t cur _
    show (setNode t cur (fun n => { n with id := (t.keywords.length : Int) })).keywords ++
      [{ keyword := key,
         id := (setNode t cur
           (fun n => { n with id := (t.keywords.length : Int) })).keywords.length }] = _
    rw [h1]
  have hpathT2 : ∀ i, path T2 i = path t i :=
    path_fields_congr t T2 (fun k => ⟨(hfld k).2.1, (hfld k).2.2.2.2, (hfld k).1⟩)
  have hfoldT2 : fold T2 = fold t := by
    funext c0
    unfold fold
    rfl
  refine ⟨?_, ?_, ?_⟩
  · intro i hi
    rw [hlenT2] at hi
    rw [(hfld i).2.2.2.1, hgid (getNode t i).output]
    by_cases hoc : (getNode t i).output = cur
    · rw [if_pos hoc]
      refine Or.inr ?_
      intro hcon
      have : (0 : Int) ≤ (t.keywords.length : Int) := by positivity
      omega
    · rw [if_neg hoc]
      exact hK1 i hi
  · intro i hi hi0
    rw [hlenT2] at hi
    rw [(hfld i).2.2.1, (hfld i).2.2.2.1, hpathT2, hpathT2, hpathT2]
    exact hK2 i hi hi0
  · intro i hi hid
    rw [hlenT2] at hi
    rw [hgid i] at hid
    rw [hgid i, hpathT2, hkwT2, hfoldT2]
    by_cases hic : i = cur
    · rw [if_pos hic] at hid ⊢
      refine ⟨by positivity, ?_, ?_⟩
      · rw [Int.toNat_natCast, List.length_append, List.length_singleton]
        omega
      · rw [Int.toNat_natCast, List.getD_eq_getElem?_getD, List.getElem?_append,
          if_neg (lt_irrefl _)]
        simp only [Nat.sub_self, List.getElem?_cons_zero, Option.getD_some]
        rw [hic, hpath]
    · rw [if_neg hic] at hid ⊢
      have hold := hK3 i hi hid
      refine ⟨hold.1, ?_, ?_⟩
      · rw [List.length_append, List.length_singleton]
        omega
      · rw [List.getD_eq_getElem?_getD, List.getElem?_append, if_pos hold.2.1,
          ← List.getD_eq_getElem?_getD]
        exact hold.2.2

theorem WK_addString (t : keyword_trie) (key : List Nat) (flag : Bool)
    (hw : WS t) (hk : WK t) : WK (addString t key flag).2 := by
  unfold addString
  by_cases hkey : key = []
  · rw [if_pos hkey]; exact hk
  · rw [if_neg hkey]
    simp only
    rw [addString_walk_eq]
    set w := walkAdd t 0 (key.map (fold t)) with hwdef
    have hWfacts := walkAdd_facts (key.map (fold t)) t 0 hw hw.1
    rw [← hwdef] at hWfacts
    have hWK := walkAdd_WK (key.map (fold t)) t 0 hw hk hw.1
    rw [← hwdef] at hWK
    have hlook := lookupPath_walkAdd (key.map (fold t)) t 0 hw hw.1
    rw [← hwdef] at hlook
    have hflags := walkAdd_flags (key.map (fold t)) t 0
    rw [← hwdef] at hflags
    have hfoldw : fold w.1 = fold t := by
      funext c0
      unfold fold
      rw [hflags.1]
    have hpathcf : path w.1 w.2 = key.map (fold w.1) := by
      have hlp := lookupPath_path (key.map (fold t)) w.1 0 w.2 hWfacts.1 hWfacts.1.1 hlook
      rw [path_root w.1 hWfacts.1, List.nil_append] at hlp
      rw [hlp.2, hfoldw]
    by_cases hid : (getNode w.1 w.2).id ≠ -1
    · rw [if_pos hid]
      exact hWK
    · rw [if_neg hid]
      have hne0 : w.2 ≠ 0 := by
        intro h0
        rw [h0, path_root w.1 hWfacts.1] at hpathcf
        have : key = [] := by
          rcases key with _ | ⟨a, as⟩
          · rfl
          · cases hpathcf
        exact hkey this
      have hkwlen : w.1.keywords.length = t.keywords.length := by rw [hflags.2]
      have hassign := WK_assign w.1 w.2 key hWfacts.1 hWK hWfacts.2.1 hpathcf
      have hWS2 : WS { setNode w.1 w.2
          (fun n => { n with id := (w.1.keywords.length : Int) }) with
          keywords := (setNode w.1 w.2
              (fun n => { n with id := (w.1.keywords.length : Int) })).keywords ++
            [{ keyword := key,
               id := (setNode w.1 w.2
                 (fun n => { n with id := (w.1.keywords.length : Int) })).keywords.length }] } :=
        WS_keywords_congr _ _ (WS_setNode_id w.1 w.2 _ hWfacts.1 hne0)
      by_cases hfl : flag = true
      · rw [if_pos hfl]
        exact WK_addFailureLinks _ hWS2 hassign
      · rw [if_neg hfl]
        exact hassign

theorem Built_WK (t : keyword_trie) (hb : Built t) : WK t := by
  induction hb with
  | base cs => exact WK_empty cs
  | insert key flag hb ih => exact WK_addString _ key flag (Built_WS _ hb) ih
  | links hb ih => exact WK_addFailureLinks _ (Built_WS _ hb) ih

/-! ### Soundness of the scan -/

/-- The failure-chain search stays in range and returns a node whose path
is a suffix of `P ++ [ch]`, whenever the start node's path is a suffix
of `P`. -/
theorem failSearch_sound (t : keyword_trie) (hw : WS t) (hk : WK t) (ch : Nat) :
    ∀ (f i : Nat) (P : List Nat), i < t.trieNodes.length → path t i <:+ P →
      failSearch t ch f i < t.trieNodes.length ∧
      path t (failSearch t ch f i) <:+ P ++ [ch] := by
  have hroot : ∀ (P : List Nat),
      (match (getNode t 0).children.find? (fun j => (getNode t j).c = ch) with
        | some j => j
        | none => 0) < t.trieNodes.length ∧
      path t (match (getNode t 0).children.find? (fun j => (getNode t j).c = ch) with
        | some j => j
        | none => 0) <:+ P ++ [ch] := by
    intro P
    cases hfind : (getNode t 0).children.find? (fun j => (getNode t j).c = ch) with
    | none =>
      refine ⟨hw.1, ?_⟩
      rw [path_root t hw]
      exact List.nil_suffix
    | some j =>
      have hj := find?_child_c hfind
      have hjf := (hw.2.2.1 0 hw.1).2 j hj.1
      refine ⟨hjf.1, ?_⟩
      rw [path_child t hw 0 j hw.1 hj.1, path_root t hw, List.nil_append, hj.2]
      exact ⟨P, rfl⟩
  intro f
  induction f with
  | zero =>
    intro i P hi hp
    exact hroot P
  | succ f ih =>
    intro i P hi hp
    unfold failSearch
    by_cases h0 : i = 0
    · rw [if_pos h0]
      exact hroot P
    · rw [if_neg h0]
      cases hfind : (getNode t i).children.find? (fun j => (getNode t j).c = ch) with
      | some j =>
        have hj := find?_child_c hfind
        have hjf := (hw.2.2.1 i hi).2 j hj.1
        refine ⟨hjf.1, ?_⟩
        rw [path_child t hw i j hi hj.1, hj.2]
        exact suffix_append_right hp
      | none =>
        have hD := hw.2.2.2 i hi h0
        exact ih (getNode t i).failure P hD.2.2.1
          (List.IsSuffix.trans (hk.2.1 i hi h0).1 hp)

theorem findChild_sound (t : keyword_trie) (hw : WS t) (hk : WK t)
    (cur ch : Nat) (P : List Nat) (hc : cur < t.trieNodes.length)
    (hp : path t cur <:+ P) :
    findChild t cur ch < t.trieNodes.length ∧
    path t (findChild t cur ch) <:+ P ++ [ch] := by
  unfold findChild
  cases hfind : (getNode t cur).children.find? (fun j => (getNode t j).c = ch) with
  | some j =>
    have hj := find?_child_c hfind
    have hjf := (hw.2.2.1 cur hc).2 j hj.1
    refine ⟨hjf.1, ?_⟩
    rw [path_child t hw cur j hc hj.1, hj.2]
    exact suffix_append_right hp
  | none =>
    unfold traverseFail
    have hfail : (getNode t cur).failure < t.trieNodes.length ∧
        path t (getNode t cur).failure <:+ P := by
      by_cases h0 : cur = 0
      · rw [h0, hw.2.1.2.2.1]
        refine ⟨hw.1, ?_⟩
        rw [path_root t hw]
        exact List.nil_suffix
      · exact ⟨(hw.2.2.2 cur hc h0).2.2.1,
          List.IsSuffix.trans (hk.2.1 cur hc h0).1 hp⟩
    exact failSearch_sound t hw hk ch t.trieNodes.length (getNode t cur).failure P
      hfail.1 hfail.2

/-- Every match emitted by the output chain at position `i` records a stored
keyword whose folded text is a suffix of `S`, ends at `i`, and carries the
`size_t` start offset. -/
theorem outputChain_sound (t : keyword_trie) (hw : WS t) (hk : WK t) (i : Nat)
    (S : List Nat) :
    ∀ (f temp : Nat), temp < t.trieNodes.length → path t temp <:+ S →
      (temp = 0 ∨ (getNode t temp).id ≠ -1) →
      ∀ r ∈ outputChain t i f temp,
        r.endPos = i ∧
        r.keyword.map (fold t) <:+ S ∧
        r.start = (((i : Int) - (r.keyword.length : Int) + 1).emod (2 ^ 64)).toNat := by
  intro f
  induction f with
  | zero => intro temp _ _ _ r hr; cases hr
  | succ f ih =>
    intro temp htl hpath hterm r hr
    unfold outputChain at hr
    by_cases h0 : temp = 0
    · rw [if_pos h0] at hr
      cases hr
    · rw [if_neg h0] at hr
      have hid : (getNode t temp).id ≠ -1 := by
        rcases hterm with h | h
        · exact absurd h h0
        · exact h
      have hK3 := hk.2.2 temp htl hid
      rcases List.mem_cons.1 hr with rfl | hr
      · refine ⟨rfl, ?_, rfl⟩
        show (t.keywords.getD (getNode t temp).id.toNat
            { keyword := [], id := 0 }).keyword.map (fold t) <:+ S
        rw [hK3.2.2]
        exact hpath
      · have hnext : (getNode t temp).output < t.trieNodes.length := by
          exact (hw.2.2.2 temp htl h0).2.2.2.2
        refine ih (getNode t temp).output hnext ?_ (hk.1 temp htl) r hr
        exact List.IsSuffix.trans (hk.2.1 temp htl h0).2 hpath

/-- Soundness of the scanning loop: every emitted record ends inside the
remaining text, its folded keyword is a suffix of the folded text consumed
through its end position, and its start field is the `size_t` offset
computation. -/
theorem parseLoop_sound (t : keyword_trie) (hw : WS t) (hk : WK t) :
    ∀ (rest : List Nat) (cur i : Nat) (consumed : List Nat),
      cur < t.trieNodes.length →
      path t cur <:+ consumed.map (fold t) →
      consumed.length = i →
      ∀ r ∈ parseLoop t rest cur i,
        i ≤ r.endPos ∧ r.endPos < i + rest.length ∧
        r.keyword.map (fold t) <:+ ((consumed ++ rest).take (r.endPos + 1)).map (fold t) ∧
        r.start = (((r.endPos : Int) - (r.keyword.length : Int) + 1).emod (2 ^ 64)).toNat := by
  intro rest
  induction rest with
  | nil => intro cur i consumed _ _ _ r hr; cases hr
  | cons ch rest ih =>
    intro cur i consumed hc hpath hlen r hr
    unfold parseLoop at hr
    have hfc := findChild_sound t hw hk cur (fold t ch) (consumed.map (fold t)) hc hpath
    have hpath2 : path t (findChild t cur (fold t ch))
        <:+ (consumed ++ [ch]).map (fold t) := by
      rw [List.map_append]
      exact hfc.2
    have htake : (consumed ++ ch :: rest).take (i + 1) = consumed ++ [ch] := by
      have h1 : consumed ++ ch :: rest = consumed ++ ([ch] ++ rest) := rfl
      rw [h1, ← List.append_assoc, ← hlen]
      have h2 : (consumed ++ [ch]).length = consumed.length + 1 := by
        rw [List.length_append, List.length_singleton]
      calc ((consumed ++ [ch]) ++ rest).take (consumed.length + 1)
          = ((consumed ++ [ch]) ++ rest).take ((consumed ++ [ch]).length + 0) := by
            rw [h2]
        _ = (consumed ++ [ch]) ++ rest.take 0 := List.take_append 0
        _ = consumed ++ [ch] := by simp
    rcases List.mem_append.1 hr with hr1 | hr3
    rcases List.mem_append.1 hr1 with hr1 | hr2
    · -- direct match at this position
      by_cases hid : (getNode t (findChild t cur (fold t ch))).id ≠ -1
      · rw [if_pos hid] at hr1
        rcases List.mem_singleton.1 hr1 with rfl
        have hK3 := hk.2.2 _ hfc.1 hid
        refine ⟨le_rfl, ?_, ?_, rfl⟩
        · show i < i + (ch :: rest).length
          simp only [List.length_cons]
          omega
        show (t.keywords.getD _ { keyword := [], id := 0 }).keyword.map (fold t)
            <:+ ((consumed ++ ch :: rest).take (i + 1)).map (fold t)
        rw [htake, hK3.2.2, List.map_append]
        exact hfc.2
      · rw [if_neg hid] at hr1
        cases hr1
    · -- output-chain matches at this position
      have hout : (getNode t (findChild t cur (fold t ch))).output
            < t.trieNodes.length ∧
          path t (getNode t (findChild t cur (fold t ch))).output
            <:+ (consumed ++ [ch]).map (fold t) := by
        by_cases h0 : findChild t cur (fold t ch) = 0
        · rw [h0, hw.2.1.2.2.2.1]
          refine ⟨hw.1, ?_⟩
          rw [path_root t hw]
          exact List.nil_suffix
        · exact ⟨(hw.2.2.2 _ hfc.1 h0).2.2.2.2,
            List.IsSuffix.trans (hk.2.1 _ hfc.1 h0).2 hpath2⟩
      have hchain := outputChain_sound t hw hk i ((consumed ++ [ch]).map (fold t))
        t.trieNodes.length (getNode t (findChild t cur (fold t ch))).output
        hout.1 hout.2 (hk.1 _ hfc.1) r hr2
      refine ⟨by omega, by rw [hchain.1]; simp, ?_, by rw [hchain.1]; exact hchain.2.2⟩
      rw [hchain.1, htake]
      exact hchain.2.1
    · -- matches found deeper in the text
      have hrec := ih (findChild t cur (fold t ch)) (i + 1) (consumed ++ [ch]) hfc.1
        hpath2 (by rw [List.length_append, List.length_singleton, hlen]) r hr3
      have hassoc : (consumed ++ [ch]) ++ rest = consumed ++ ch :: rest := by simp
      rw [hassoc] at hrec
      refine ⟨by omega, by simp only [List.length_cons]; omega, hrec.2.2.1, hrec.2.2.2⟩

/-! ### C5: match records delimit exact occurrences -/

theorem map_fold_id (t : keyword_trie) (hcs : t.caseSensitive = true) (l : List Nat) :
    l.map (fold t) = l := by
  have h : ∀ c, fold t c = c := by
    intro c
    unfold fold
    rw [hcs]
    rfl
  calc l.map (fold t) = l.map id := List.map_congr_left (fun c _ => h c)
    _ = l := List.map_id l

/-- C5 (amended): every match record of every automaton — case-sensitive or
not — satisfies `start = endPos + 1 - keyword.length` with 0-based offsets
and an inclusive in-range end offset (the `size_t` computation of `start`
never wraps for texts shorter than 2^64); the delimited slice of the text is
an occurrence of the matched keyword under the automaton's symbol
comparison: equal after case folding always, and byte-exact whenever the
automaton is case-sensitive. -/
theorem match_record_exact (t : keyword_trie) (text : List Nat) (hb : Built t)
    (hlen : text.length < 2 ^ 64) :
    ∀ r ∈ parseText t text,
      r.endPos < text.length ∧
      r.keyword.length ≤ r.endPos + 1 ∧
      r.start = r.endPos + 1 - r.keyword.length ∧
      ((text.drop r.start).take r.keyword.length).map (fold t)
        = r.keyword.map (fold t) ∧
      (t.caseSensitive = true →
        (text.drop r.start).take r.keyword.length = r.keyword) := by
  have hw := Built_WS t hb
  have hk := Built_WK t hb
  intro r hr
  unfold parseText at hr
  by_cases ht : text = []
  · rw [if_pos ht] at hr
    cases hr
  · rw [if_neg ht] at hr
    have hsound := parseLoop_sound t hw hk text 0 0 [] hw.1
      (by rw [path_root t hw]; exact List.nil_suffix) rfl r hr
    have hend : r.endPos < text.length := by
      have := hsound.2.1
      omega
    have hsuffix : r.keyword.map (fold t) <:+ (text.take (r.endPos + 1)).map (fold t) := by
      have h1 := hsound.2.2.1
      rw [List.nil_append] at h1
      exact h1
    obtain ⟨p, hp⟩ := hsuffix
    have hplen1 : p.length + r.keyword.length = r.endPos + 1 := by
      have hc := congrArg List.length hp
      rw [List.length_append, List.length_map, List.length_map, List.length_take] at hc
      omega
    have hklen : r.keyword.length ≤ r.endPos + 1 := by omega
    have hstart : r.start = r.endPos + 1 - r.keyword.length := by
      rw [hsound.2.2.2]
      have hv : ((r.endPos : Int) - (r.keyword.length : Int) + 1)
          = ((r.endPos + 1 - r.keyword.length : Nat) : Int) := by
        push_cast
        omega
      have h2n : r.endPos + 1 - r.keyword.length < 2 ^ 64 := by omega
      have hemod := Int.emod_eq_of_lt
        (a := ((r.endPos + 1 - r.keyword.length : Nat) : Int)) (b := 2 ^ 64)
        (Int.natCast_nonneg _) (by exact_mod_cast h2n)
      calc (((r.endPos : Int) - (r.keyword.length : Int) + 1).emod (2 ^ 64)).toNat
          = ((((r.endPos + 1 - r.keyword.length : Nat) : Int)).emod (2 ^ 64)).toNat := by
            rw [hv]
        _ = (((r.endPos + 1 - r.keyword.length : Nat) : Int)).toNat :=
            congrArg Int.toNat hemod
        _ = r.endPos + 1 - r.keyword.length := Int.toNat_natCast _
    have hplen : p.length = r.endPos + 1 - r.keyword.length := by omega
    have hfolded : ((text.drop r.start).take r.keyword.length).map (fold t)
        = r.keyword.map (fold t) := by
      rw [List.map_take, List.map_drop, hstart, ← hplen]
      have hmap : (text.take (r.endPos + 1)).map (fold t)
          = (text.map (fold t)).take (r.endPos + 1) := List.map_take _ _ _
      rw [hmap] at hp
      conv_lhs => rw [← List.take_append_drop (r.endPos + 1) (text.map (fold t)),
        ← hp, List.append_assoc, List.drop_left]
      rw [show r.keyword.length = (r.keyword.map (fold t)).length
        from (List.length_map _ _).symm, List.take_left]
    refine ⟨hend, hklen, hstart, hfolded, ?_⟩
    intro hcs
    have hexact := hfolded
    rw [map_fold_id t hcs, map_fold_id t hcs] at hexact
    exact hexact

/-- C5 witness: the record facts instantiated on the "ushers" automaton and
text, at the match of "she" ending at offset 3. -/
theorem match_record_exact_witness :
    (syms "ushers").length < 2 ^ 64 ∧
    ({ keyword := syms "she", id := 4, start := 1, endPos := 3 } : Result)
      ∈ parseText trieUshers (syms "ushers") ∧
    ((3 : Nat) < (syms "ushers").length ∧
      (syms "she").length ≤ 3 + 1 ∧
      (1 : Nat) = 3 + 1 - (syms "she").length ∧
      (((syms "ushers").drop 1).take (syms "she").length).map (fold trieUshers)
        = (syms "she").map (fold trieUshers) ∧
      (trieUshers.caseSensitive = true →
        ((syms "ushers").drop 1).take (syms "she").length = syms "she")) :=
  ⟨by decide, by decide,
    match_record_exact trieUshers (syms "ushers")
      (Built_addStringSet {} [syms "hers", syms "his", syms "she", syms "he", syms "her"]
        (Built.base true))
      (by decide)
      { keyword := syms "she", id := 4, start := 1, endPos := 3 } (by decide)⟩

/-- C5 counterexample to the byte-exact reading: on the case-insensitive
automaton holding "Her", scanning "usheRs" emits the record
(keyword "Her", start 2, end 4) whose delimited slice "heR" differs from
the stored keyword byte-for-byte, while agreeing with it after case
folding. -/
theorem match_record_not_byte_exact :
    parseText trieHerInsens (syms "usheRs")
      = [{ keyword := syms "Her", id := 0, start := 2, endPos := 4 }] ∧
    ((syms "usheRs").drop 2).take (syms "Her").length ≠ syms "Her" ∧
    (((syms "usheRs").drop 2).take (syms "Her").length).map (fold trieHerInsens)
      = (syms "Her").map (fold trieHerInsens) := by
  decide

/-! ### C9: idempotence of the link construction -/

theorem setNode_self_eq (t : keyword_trie) (i : Nat) (f : Node → Node)
    (h : f (getNode t i) = getNode t i) : setNode t i f = t := by
  unfold setNode
  rw [h]
  by_cases hi : i < t.trieNodes.length
  · have hset : t.trieNodes.set i (getNode t i) = t.trieNodes := by
      apply List.ext_getElem?
      intro j
      rw [List.getElem?_set]
      by_cases hij : i = j
      · subst hij
        rw [if_pos rfl, getNode_lt t i hi, if_pos hi, List.getElem?_eq_getElem hi]
      · rw [if_neg hij]
    rw [hset]
  · rw [List.set_eq_of_length_le (by omega)]

theorem bfsStep_getNode_ne (t : keyword_trie) (n k : Nat) (hk : k ≠ n) :
    getNode (bfsStep t n) k = getNode t k := by
  unfold bfsStep
  simp only
  rw [getNode_setNode_ne _ _ _ _ (Ne.symm hk)]
  by_cases hguard : ((getNode t (getNode t n).failure).depth : Int)
      < ((getNode t n).depth : Int) - 1
  · rw [if_pos hguard]
    cases hscan : scanChildren t
        (getNode t (getNode t (getNode t n).parent).failure).children (getNode t n).c with
    | none => rfl
    | some j => rw [getNode_setNode_ne _ _ _ _ (Ne.symm hk)]
  · rw [if_neg hguard]

theorem scanChildren_congr (A B : keyword_trie) (js : List Nat) (ch : Nat)
    (h : ∀ j ∈ js, (getNode B j).c = (getNode A j).c) :
    scanChildren B js ch = scanChildren A js ch := by
  unfold scanChildren
  suffices hgen : ∀ (acc : Option Nat),
      js.foldl (fun acc j => if (getNode B j).c = ch then some j else acc) acc
        = js.foldl (fun acc j => if (getNode A j).c = ch then some j else acc) acc by
    exact hgen none
  induction js with
  | nil => intro acc; rfl
  | cons x xs ih =>
    intro acc
    simp only [List.foldl_cons]
    rw [h x (List.mem_cons_self _ _)]
    exact ih (fun j hj => h j (List.mem_cons_of_mem _ hj)) _

theorem walkOut_congr (A B : keyword_trie) (D : Nat) (hw : WS A)
    (hfields : ∀ m, m < A.trieNodes.length →
      (getNode B m).id = (getNode A m).id ∧
      ((getNode A m).depth < D → (getNode B m).failure = (getNode A m).failure)) :
    ∀ (f i : Nat), i < A.trieNodes.length → (getNode A i).depth < D →
      walkOut B f i = walkOut A f i := by
  intro f
  induction f with
  | zero => intro i _ _; rfl
  | succ f ih =>
    intro i hi hd
    unfold walkOut
    by_cases h0 : i = 0
    · rw [if_pos h0, if_pos h0]
    · rw [if_neg h0, if_neg h0, (hfields i hi).1]
      by_cases hid : (getNode A i).id ≠ -1
      · rw [if_pos hid, if_pos hid]
      · rw [if_neg hid, if_neg hid, (hfields i hi).2 hd]
        have hD := hw.2.2.2 i hi h0
        exact ih (getNode A i).failure hD.2.2.1 (by omega)

/-- Normal form of one link-construction step: the failure field receives a
determined value `fl` and the output field is recomputed from it. -/
theorem bfsStep_at (S : keyword_trie) (n : Nat) (hn : n < S.trieNodes.length) :
    ∃ fl : Nat,
      fl = (if ((getNode S (getNode S n).failure).depth : Int)
          < ((getNode S n).depth : Int) - 1 then
        match scanChildren S
            (getNode S (getNode S (getNode S n).parent).failure).children (getNode S n).c with
        | some j => j
        | none => (getNode S n).failure
      else (getNode S n).failure) ∧
      (getNode (bfsStep S n) n).failure = fl ∧
      (getNode (bfsStep S n) n).output
        = walkOut (setNode S n (fun m => { m with failure := fl }))
            (setNode S n (fun m => { m with failure := fl })).trieNodes.length fl ∧
      bfsStep S n = setNode (setNode S n (fun m => { m with failure := fl })) n
        (fun m => { m with output := walkOut (setNode S n (fun m => { m with failure := fl })) (setNode S n (fun m => { m with failure := fl })).trieNodes.length fl }) := by
  have hfail : ∀ fl, (getNode (setNode S n (fun m => { m with failure := fl })) n).failure
      = fl := by
    intro fl
    rw [getNode_setNode_self S n _ hn]
  have hself : setNode S n (fun m => { m with failure := (getNode S n).failure }) = S :=
    setNode_self_eq S n _ rfl
  by_cases hguard : ((getNode S (getNode S n).failure).depth : Int)
      < ((getNode S n).depth : Int) - 1
  · cases hscan : scanChildren S
        (getNode S (getNode S (getNode S n).parent).failure).children (getNode S n).c with
    | some j =>
      have hlen1 : n < (setNode S n (fun m => { m with failure := j })).trieNodes.length := by
        rw [length_setNode]
        exact hn
      have h4 : bfsStep S n = setNode (setNode S n (fun m => { m with failure := j })) n
          (fun m => { m with output := walkOut (setNode S n (fun m => { m with failure := j })) (setNode S n (fun m => { m with failure := j })).trieNodes.length j }) := by
        unfold bfsStep
        simp only [hscan, if_pos hguard]
        rw [hfail j]
      refine ⟨j, by simp only [hscan, if_pos hguard], ?_, ?_, h4⟩
      · rw [h4, getNode_setNode_self _ n _ hlen1]
        exact hfail j
      · rw [h4, getNode_setNode_self _ n _ hlen1]
    | none =>
      have hlen1 : n < (setNode S n
          (fun m => { m with failure := (getNode S n).failure })).trieNodes.length := by
        rw [length_setNode]
        exact hn
      have h4 : bfsStep S n
          = setNode (setNode S n (fun m => { m with failure := (getNode S n).failure })) n
          (fun m => { m with output := walkOut (setNode S n (fun m => { m with failure := (getNode S n).failure })) (setNode S n (fun m => { m with failure := (getNode S n).failure })).trieNodes.length (getNode S n).failure }) := by
        unfold bfsStep
        simp only [hscan, if_pos hguard]
        rw [hself]
      refine ⟨(getNode S n).failure, by simp only [hscan, if_pos hguard], ?_, ?_, h4⟩
      · rw [h4, getNode_setNode_self _ n _ hlen1]
        exact hfail _
      · rw [h4, getNode_setNode_self _ n _ hlen1]
  · have hlen1 : n < (setNode S n
        (fun m => { m with failure := (getNode S n).failure })).trieNodes.length := by
      rw [length_setNode]
      exact hn
    have h4 : bfsStep S n
        = setNode (setNode S n (fun m => { m with failure := (getNode S n).failure })) n
        (fun m => { m with output := walkOut (setNode S n (fun m => { m with failure := (getNode S n).failure })) (setNode S n (fun m => { m with failure := (getNode S n).failure })).trieNodes.length (getNode S n).failure }) := by
      unfold bfsStep
      simp only [if_neg hguard]
      rw [hself]
    refine ⟨(getNode S n).failure, by simp only [if_neg hguard], ?_, ?_, h4⟩
    · rw [h4, getNode_setNode_self _ n _ hlen1]
      exact hfail _
    · rw [h4, getNode_setNode_self _ n _ hlen1]

/-- Nodes outside the queue that are no deeper than every queued node keep
their links for the rest of the pass. -/
theorem bfsLoop_frame (f : Nat) :
    ∀ (S : keyword_trie) (q : List Nat) (d m : Nat), WS S →
      (∀ x ∈ q, x < S.trieNodes.length) →
      (∀ x ∈ q, d ≤ (getNode S x).depth) →
      (getNode S m).depth ≤ d → m ∉ q →
      (getNode (bfsLoop S f q) m).failure = (getNode S m).failure ∧
      (getNode (bfsLoop S f q) m).output = (getNode S m).output := by
  induction f with
  | zero => intro S q d m _ _ _ _ _; cases q <;> exact ⟨rfl, rfl⟩
  | succ f ih =>
    intro S q d m hw hrange hdepth hdm hmq
    cases q with
    | nil => exact ⟨rfl, rfl⟩
    | cons n rest =>
      have hmn : m ≠ n := by
        intro h
        exact hmq (h ▸ List.mem_cons_self _ _)
      have hnlt : n < S.trieNodes.length := hrange n (List.mem_cons_self _ _)
      have hsh := bfsStep_shape S n
      have hstep := ih (bfsStep S n) (rest ++ (getNode S n).children) d m
        (WS_bfsStep S n hw)
        (by
          intro x hx
          rw [hsh.1]
          rcases List.mem_append.1 hx with hx | hx
          · exact hrange x (List.mem_cons_of_mem _ hx)
          · exact ((hw.2.2.1 n hnlt).2 x hx).1)
        (by
          intro x hx
          rw [(hsh.2.2.2 x).2.1]
          rcases List.mem_append.1 hx with hx | hx
          · exact hdepth x (List.mem_cons_of_mem _ hx)
          · have := ((hw.2.2.1 n hnlt).2 x hx).2.2.2
            have hdn := hdepth n (List.mem_cons_self _ _)
            omega)
        (by rw [(hsh.2.2.2 m).2.1]; exact hdm)
        (by
          intro hx
          rcases List.mem_append.1 hx with hx | hx
          · exact hmq (List.mem_cons_of_mem _ hx)
          · have := ((hw.2.2.1 n hnlt).2 m hx).2.2.2
            have hdn := hdepth n (List.mem_cons_self _ _)
            omega)
      have hother := bfsStep_getNode_ne S n m hmn
      refine ⟨?_, ?_⟩
      · show (getNode (bfsLoop (bfsStep S n) f (rest ++ (getNode S n).children)) m).failure = _
        rw [hstep.1, hother]
      · show (getNode (bfsLoop (bfsStep S n) f (rest ++ (getNode S n).children)) m).output = _
        rw [hstep.2, hother]

theorem node_set_failure_self (m : Node) (v : Nat) (h : m.failure = v) :
    { m with failure := v } = m := by
  rw [← h]

theorem node_set_output_self (m : Node) (v : Nat) (h : m.output = v) :
    { m with output := v } = m := by
  rw [← h]

theorem pairwise_all {α : Type} (R : α → α → Prop) :
    ∀ (l : List α), (∀ a ∈ l, ∀ b ∈ l, R a b) → l.Pairwise R := by
  intro l
  induction l with
  | nil => intro _; exact List.Pairwise.nil
  | cons a l ih =>
    intro h
    exact List.Pairwise.cons
      (fun b hb => h a (List.mem_cons_self _ _) b (List.mem_cons_of_mem _ hb))
      (ih (fun x hx y hy => h x (List.mem_cons_of_mem _ hx) y (List.mem_cons_of_mem _ hy)))

theorem QI_congr (A B : keyword_trie) (q : List Nat)
    (hlen : B.trieNodes.length = A.trieNodes.length)
    (hdp : ∀ k, (getNode B k).depth = (getNode A k).depth ∧
      (getNode B k).parent = (getNode A k).parent)
    (h : QI A q) : QI B q := by
  obtain ⟨h1, h2, h3, h4, h5⟩ := h
  refine ⟨h1.imp ?_, ?_, h3, ?_, ?_⟩
  · intro a b hab
    rw [(hdp a).1, (hdp b).1]
    exact hab
  · intro x hx y hy
    rw [(hdp y).1, (hdp x).1]
    exact h2 x hx y hy
  · intro x hx hx0
    rw [(hdp x).2]
    exact h4 x hx hx0
  · intro x hx
    rw [hlen]
    exact h5 x hx

/-- One round of the breadth-first loop preserves the queue invariant. -/
theorem QI_step (S : keyword_trie) (n : Nat) (rest : List Nat) (hw : WS S)
    (hqi : QI S (n :: rest)) :
    QI (bfsStep S n) (rest ++ (getNode S n).children) := by
  obtain ⟨h1, h2, h3, h4, h5⟩ := hqi
  have hnlt : n < S.trieNodes.length := h5 n (List.mem_cons_self _ _)
  have hch := hw.2.2.1 n hnlt
  have hhd := (List.pairwise_cons.1 h1).1
  have hsh := bfsStep_shape S n
  apply QI_congr S (bfsStep S n) _ hsh.1
    (fun k => ⟨(hsh.2.2.2 k).2.1, (hsh.2.2.2 k).2.2.2.1⟩)
  refine ⟨?_, ?_, ?_, ?_, ?_⟩
  · rw [List.pairwise_append]
    refine ⟨(List.pairwise_cons.1 h1).2, ?_, ?_⟩
    · refine pairwise_all _ _ (fun a ha b hb => ?_)
      have hda := (hch.2 a ha).2.2.2
      have hdb := (hch.2 b hb).2.2.2
      omega
    · intro a ha b hb
      have hdb := (hch.2 b hb).2.2.2
      have hba := h2 n (List.mem_cons_self _ _) a (List.mem_cons_of_mem _ ha)
      omega
  · intro x hx y hy
    rcases List.mem_append.1 hx with hx | hx <;> rcases List.mem_append.1 hy with hy | hy
    · exact h2 x (List.mem_cons_of_mem _ hx) y (List.mem_cons_of_mem _ hy)
    · have hdy := (hch.2 y hy).2.2.2
      have hdx := hhd x hx
      omega
    · have hdx := (hch.2 x hx).2.2.2
      have hdy := h2 n (List.mem_cons_self _ _) y (List.mem_cons_of_mem _ hy)
      omega
    · have hdx := (hch.2 x hx).2.2.2
      have hdy := (hch.2 y hy).2.2.2
      omega
  · rw [List.nodup_append]
    refine ⟨(List.nodup_cons.1 h3).2, hch.1, ?_⟩
    intro a ha hac
    have hpar := (hch.2 a hac).2.2.1
    have ha0 : a ≠ 0 := by
      have := (hch.2 a hac).2.1
      omega
    have hnot := h4 a (List.mem_cons_of_mem _ ha) ha0
    rw [hpar] at hnot
    exact hnot (List.mem_cons_self _ _)
  · intro x hx hx0 hmem
    rcases List.mem_append.1 hx with hx | hx
    · rcases List.mem_append.1 hmem with hm | hm
      · exact h4 x (List.mem_cons_of_mem _ hx) hx0 (List.mem_cons_of_mem _ hm)
      · have hd1 := (hch.2 _ hm).2.2.2
        have hxlen : x < S.trieNodes.length := h5 x (List.mem_cons_of_mem _ hx)
        have hd2 := (hw.2.2.2 x hxlen hx0).2.1
        have hd3 := h2 n (List.mem_cons_self _ _) x (List.mem_cons_of_mem _ hx)
        omega
    · have hpar := (hch.2 x hx).2.2.1
      rw [hpar] at hmem
      rcases List.mem_append.1 hmem with hm | hm
      · exact (List.nodup_cons.1 h3).1 hm
      · exact absurd (hch.2 n hm).2.1 (lt_irrefl n)
  · intro x hx
    rcases List.mem_append.1 hx with hx | hx
    · exact h5 x (List.mem_cons_of_mem _ hx)
    · exact (hch.2 x hx).1

/-- Re-running the breadth-first pass from any state it already produced is
a no-op: every dequeued node receives exactly the links it already has. -/
theorem bfsLoop_idem (f : Nat) :
    ∀ (S : keyword_trie) (q : List Nat), WS S → QI S q →
      bfsLoop (bfsLoop S f q) f q = bfsLoop S f q := by
  induction f with
  | zero => intro S q _ _; cases q <;> rfl
  | succ f ih =>
    intro S q hw hqi
    cases q with
    | nil => rfl
    | cons n rest =>
      have hw1 : WS (bfsStep S n) := WS_bfsStep S n hw
      have hqi1 := QI_step S n rest hw hqi
      have hT := ih (bfsStep S n) (rest ++ (getNode S n).children) hw1 hqi1
      have hshS := bfsStep_shape S n
      have hshT := bfsLoop_shape f (bfsStep S n) (rest ++ (getNode S n).children)
      have hwT : WS (bfsLoop (bfsStep S n) f (rest ++ (getNode S n).children)) :=
        WS_bfsLoop (bfsStep S n) f _ hw1
      have hnlt : n < S.trieNodes.length := hqi.2.2.2.2 n (List.mem_cons_self _ _)
      have hch := hw.2.2.1 n hnlt
      have hrange1 : ∀ x ∈ rest ++ (getNode S n).children,
          x < (bfsStep S n).trieNodes.length := by
        intro x hx
        rw [hshS.1]
        rcases List.mem_append.1 hx with hx | hx
        · exact hqi.2.2.2.2 x (List.mem_cons_of_mem _ hx)
        · exact (hch.2 x hx).1
      have hdepth1 : ∀ x ∈ rest ++ (getNode S n).children,
          (getNode S n).depth ≤ (getNode (bfsStep S n) x).depth := by
        intro x hx
        rw [(hshS.2.2.2 x).2.1]
        rcases List.mem_append.1 hx with hx | hx
        · exact (List.pairwise_cons.1 hqi.1).1 x hx
        · rw [(hch.2 x hx).2.2.2]
          omega
      have hnq1 : n ∉ rest ++ (getNode S n).children := by
        intro hx
        rcases List.mem_append.1 hx with hx | hx
        · exact (List.nodup_cons.1 hqi.2.2.1).1 hx
        · exact absurd (hch.2 n hx).2.1 (lt_irrefl n)
      have hA := bfsLoop_frame f (bfsStep S n) (rest ++ (getNode S n).children)
        (getNode S n).depth n hw1 hrange1 hdepth1
        (le_of_eq ((hshS.2.2.2 n).2.1)) hnq1
      have hlow : ∀ m, m < S.trieNodes.length →
          (getNode S m).depth < (getNode S n).depth →
          (getNode (bfsLoop (bfsStep S n) f (rest ++ (getNode S n).children)) m).failure
            = (getNode S m).failure := by
        intro m hm hdm
        have hmn : m ≠ n := fun e => absurd hdm (by rw [e]; exact lt_irrefl _)
        have hfr := bfsLoop_frame f (bfsStep S n) (rest ++ (getNode S n).children)
          (getNode S n).depth m hw1 hrange1 hdepth1
          (by rw [(hshS.2.2.2 m).2.1]; omega)
          (by
            intro hx
            have hge := hdepth1 m hx
            rw [(hshS.2.2.2 m).2.1] at hge
            omega)
        rw [hfr.1, bfsStep_getNode_ne S n m hmn]
      show bfsLoop (bfsLoop (bfsStep S n) f (rest ++ (getNode S n).children)) (f + 1) (n :: rest)
          = bfsLoop (bfsStep S n) f (rest ++ (getNode S n).children)
      set T := bfsLoop (bfsStep S n) f (rest ++ (getNode S n).children) with hTdef
      have hlenT : T.trieNodes.length = S.trieNodes.length := hshT.1.trans hshS.1
      have hdepthT : ∀ k, (getNode T k).depth = (getNode S k).depth :=
        fun k => ((hshT.2.2.2 k).2.1).trans ((hshS.2.2.2 k).2.1)
      have hidT : ∀ k, (getNode T k).id = (getNode S k).id :=
        fun k => ((hshT.2.2.2 k).1).trans ((hshS.2.2.2 k).1)
      have hcT : ∀ k, (getNode T k).c = (getNode S k).c :=
        fun k => ((hshT.2.2.2 k).2.2.1).trans ((hshS.2.2.2 k).2.2.1)
      have hparentT : ∀ k, (getNode T k).parent = (getNode S k).parent :=
        fun k => ((hshT.2.2.2 k).2.2.2.1).trans ((hshS.2.2.2 k).2.2.2.1)
      have hchildrenT : ∀ k, (getNode T k).children = (getNode S k).children :=
        fun k => ((hshT.2.2.2 k).2.2.2.2).trans ((hshS.2.2.2 k).2.2.2.2)
      have hstab : bfsStep T n = T := by
        by_cases hn0 : n = 0
        · subst hn0
          obtain ⟨flT, hflT_eq, hflT1, houtT1, hT_eq⟩ :=
            bfsStep_at T 0 (by rw [hlenT]; exact hw.1)
          have hrootT := hwT.2.1
          have hgT : ¬(((getNode T (getNode T 0).failure).depth : Int)
              < ((getNode T 0).depth : Int) - 1) := by
            rw [hrootT.2.2.1, hrootT.1]
            decide
          rw [if_neg hgT, hrootT.2.2.1] at hflT_eq
          subst hflT_eq
          have ht1 : setNode T 0 (fun m => { m with failure := 0 }) = T :=
            setNode_self_eq T 0 _ (node_set_failure_self _ _ hrootT.2.2.1)
          rw [hT_eq, ht1, walkOut_zero]
          exact setNode_self_eq T 0 _ (node_set_output_self _ _ hrootT.2.2.2.1)
        · have hD := hw.2.2.2 n hnlt hn0
          obtain ⟨fl, hfl_eq, hfl_S1, hout_S1, hS1_eq⟩ := bfsStep_at S n hnlt
          have hfailTn : (getNode T n).failure = fl := hA.1.trans hfl_S1
          have houtTn : (getNode T n).output
              = walkOut (setNode S n (fun m => { m with failure := fl }))
                (setNode S n (fun m => { m with failure := fl })).trieNodes.length fl :=
            hA.2.trans hout_S1
          have hn1len : n < (bfsStep S n).trieNodes.length := by
            rw [hshS.1]
            exact hnlt
          have hfl_lt : fl < S.trieNodes.length := by
            have hq := (hw1.2.2.2 n hn1len hn0).2.2.1
            rw [hfl_S1, hshS.1] at hq
            exact hq
          have hfl_depth : (getNode S fl).depth < (getNode S n).depth := by
            have hq := (hw1.2.2.2 n hn1len hn0).2.2.2.1
            rw [hfl_S1, (hshS.2.2.2 fl).2.1, (hshS.2.2.2 n).2.1] at hq
            exact hq
          have hplen : (getNode S n).parent < S.trieNodes.length := lt_trans hD.1 hnlt
          have hpdep : (getNode S (getNode S n).parent).depth < (getNode S n).depth := by
            have hq := hD.2.1
            omega
          have hlowp := hlow (getNode S n).parent hplen hpdep
          obtain ⟨flT, hflT_eq, hflT1, houtT1, hT_eq⟩ :=
            bfsStep_at T n (by rw [hlenT]; exact hnlt)
          rw [hfailTn, hdepthT fl, hdepthT n, hparentT n, hlowp,
            hchildrenT ((getNode S (getNode S n).parent).failure), hcT n,
            scanChildren_congr S T _ _ (fun j _ => hcT j)] at hflT_eq
          have hflT : flT = fl := by
            by_cases hgT : ((getNode S fl).depth : Int) < ((getNode S n).depth : Int) - 1
            · rw [if_pos hgT] at hflT_eq
              by_cases hgS : ((getNode S (getNode S n).failure).depth : Int)
                  < ((getNode S n).depth : Int) - 1
              · rw [if_pos hgS] at hfl_eq
                cases hscan : scanChildren S
                    (getNode S (getNode S (getNode S n).parent).failure).children
                    (getNode S n).c with
                | some j =>
                  simp only [hscan] at hflT_eq hfl_eq
                  rw [hflT_eq, hfl_eq]
                | none =>
                  simp only [hscan] at hflT_eq
                  exact hflT_eq
              · rw [if_neg hgS] at hfl_eq
                rw [hfl_eq] at hgT
                exact absurd hgT hgS
            · rw [if_neg hgT] at hflT_eq
              exact hflT_eq
          rw [hflT] at hT_eq
          have ht1 : setNode T n (fun m => { m with failure := fl }) = T :=
            setNode_self_eq T n _ (node_set_failure_self _ _ hfailTn)
          rw [hT_eq, ht1]
          have hfields1 : ∀ m,
              (getNode (setNode S n (fun mm => { mm with failure := fl })) m).id
                = (getNode (bfsStep S n) m).id ∧
              (getNode (setNode S n (fun mm => { mm with failure := fl })) m).failure
                = (getNode (bfsStep S n) m).failure := by
            intro m
            rw [hS1_eq]
            have hlen1 : n < (setNode S n
                (fun mm => { mm with failure := fl })).trieNodes.length := by
              rw [length_setNode]
              exact hnlt
            by_cases hm : n = m
            · subst hm
              rw [getNode_setNode_self (setNode S n
                (fun mm => { mm with failure := fl })) n _ hlen1]
              exact ⟨rfl, rfl⟩
            · rw [getNode_setNode_ne (setNode S n
                (fun mm => { mm with failure := fl })) n _ m hm]
              exact ⟨rfl, rfl⟩
          have hwalk1 := walkOut_congr (bfsStep S n)
            (setNode S n (fun mm => { mm with failure := fl }))
            ((getNode (bfsStep S n) fl).depth + 1) hw1
            (fun m _ => ⟨(hfields1 m).1, fun _ => (hfields1 m).2⟩)
            S.trieNodes.length fl (by rw [hshS.1]; exact hfl_lt) (Nat.lt_succ_self _)
          have hfields2 : ∀ m, m < (bfsStep S n).trieNodes.length →
              (getNode T m).id = (getNode (bfsStep S n) m).id ∧
              ((getNode (bfsStep S n) m).depth < (getNode S n).depth →
                (getNode T m).failure = (getNode (bfsStep S n) m).failure) := by
            intro m hm
            constructor
            · exact (hidT m).trans ((hshS.2.2.2 m).1).symm
            · intro hdm
              rw [(hshS.2.2.2 m).2.1] at hdm
              have hmn : m ≠ n := fun e => absurd hdm (by rw [e]; exact lt_irrefl _)
              have hl := hlow m (by rw [← hshS.1]; exact hm) hdm
              rw [bfsStep_getNode_ne S n m hmn]
              exact hl
          have hwalk2 := walkOut_congr (bfsStep S n) T (getNode S n).depth hw1 hfields2
            S.trieNodes.length fl (by rw [hshS.1]; exact hfl_lt)
            (by rw [(hshS.2.2.2 fl).2.1]; exact hfl_depth)
          have hwfinal : walkOut T T.trieNodes.length fl = (getNode T n).output := by
            rw [hlenT, houtTn, length_setNode, hwalk2, ← hwalk1]
          exact setNode_self_eq T n _ (node_set_output_self _ _ hwfinal.symm)
      have hchT : (getNode T n).children = (getNode S n).children := hchildrenT n
      calc bfsLoop T (f + 1) (n :: rest)
          = bfsLoop (bfsStep T n) f (rest ++ (getNode T n).children) := rfl
        _ = bfsLoop T f (rest ++ (getNode S n).children) := by rw [hstab, hchT]
        _ = T := hT

/-- The full link construction is idempotent on any structurally
well-formed trie. -/
theorem addFailureLinks_idem (t : keyword_trie) (hw : WS t) :
    addFailureLinks (addFailureLinks t) = addFailureLinks t := by
  show bfsLoop (addFailureLinks t) (addFailureLinks t).trieNodes.length [0]
      = addFailureLinks t
  have hlen : (addFailureLinks t).trieNodes.length = t.trieNodes.length :=
    (bfsLoop_shape t.trieNodes.length t [0]).1
  rw [hlen]
  show bfsLoop (bfsLoop t t.trieNodes.length [0]) t.trieNodes.length [0]
      = bfsLoop t t.trieNodes.length [0]
  refine bfsLoop_idem t.trieNodes.length t [0] hw
    ⟨List.Pairwise.cons (fun b hb => absurd hb (List.not_mem_nil b)) List.Pairwise.nil,
     ?_, List.nodup_singleton 0, ?_, ?_⟩
  · intro x hx y hy
    rw [List.mem_singleton.1 hx, List.mem_singleton.1 hy]
    omega
  · intro x hx hx0
    exact absurd (List.mem_singleton.1 hx) hx0
  · intro x hx
    rw [List.mem_singleton.1 hx]
    exact hw.1

/-! ### C9: idempotence of addFailureLinks -/

/-- C9: Link construction is idempotent — running the failure/output link
computation (`addFailureLinks`) twice in succession on an unchanged trie
yields a state identical to that after a single run; in particular all
failure and output links coincide. -/
theorem addFailureLinks_idempotent (t : keyword_trie) (hw : WS t) :
    addFailureLinks (addFailureLinks t) = addFailureLinks t :=
  addFailureLinks_idem t hw

/-- Witness for C9: the hypothesis holds and the theorem applies at the
concrete trie holding the keyword "her". -/
theorem addFailureLinks_idempotent_witness :
    WS trieHerM ∧
      addFailureLinks (addFailureLinks trieHerM) = addFailureLinks trieHerM :=
  ⟨by decide, addFailureLinks_idempotent trieHerM (by decide)⟩

/-! ### C8: the link-structure invariant -/

























/-- C8: in every automaton reachable through the construction interface, the
root's failure link is the root itself and every non-root node's failure
link is strictly shallower; consequently iterating the failure link from
any node depth-many times reaches the root. -/
theorem failure_depth_invariant (t : keyword_trie) (hb : Built t) :
    (getNode t 0).failure = 0 ∧
    (∀ i < t.trieNodes.length, i ≠ 0 →
      (getNode t (getNode t i).failure).depth < (getNode t i).depth) ∧
    (∀ i < t.trieNodes.length, failIter t ((getNode t i).depth) i = 0) := by
  have hw := Built_WS t hb
  refine ⟨hw.2.1.2.2.1, ?_, ?_⟩
  · intro i hi hi0
    exact (hw.2.2.2 i hi hi0).2.2.2.1
  · intro i hi
    exact failIter_reaches_root t hw _ i hi le_rfl

/-- C8 witness: the invariant instantiated on the concrete trie of
{"a", "bab"} (links built by the batch insertion). -/
theorem failure_depth_invariant_witness :
    (getNode trieAB 0).failure = 0 ∧
    (∀ i < trieAB.trieNodes.length, i ≠ 0 →
      (getNode trieAB (getNode trieAB i).failure).depth < (getNode trieAB i).depth) ∧
    (∀ i < trieAB.trieNodes.length, failIter trieAB ((getNode trieAB i).depth) i = 0) :=
  failure_depth_invariant trieAB
    (Built_addStringSet {} [syms "a", syms "bab"] (Built.base true))

/-! ### C3: the "ushers" scenario -/

/-- C3: inserting the set {"hers","his","she","he","her"} and scanning
"ushers" yields exactly the matches "she"[1,3], "he"[2,3], "her"[2,4] and
"hers"[2,5] (identifiers follow the set's sorted insertion order:
he 0, her 1, hers 2, his 3, she 4). -/
theorem parseText_ushers_matches :
    (addStringSet {} [syms "hers", syms "his", syms "she", syms "he", syms "her"]).1
        = none ∧
    parseText trieUshers (syms "ushers") =
      [{ keyword := syms "she", id := 4, start := 1, endPos := 3 },
       { keyword := syms "he", id := 0, start := 2, endPos := 3 },
       { keyword := syms "her", id := 1, start := 2, endPos := 4 },
       { keyword := syms "hers", id := 2, start := 2, endPos := 5 }] := by
  decide

/-! ### C1: the scan is not complete -/

/-- C1 (failing input): with the keyword set {"a", "bab"} inserted and links
built, scanning "babab" returns only three matches; the keyword "bab" is a
suffix of the text consumed through position 4 (symbols 2..4 spell "bab"),
yet no match for "bab" ending at 4 is reported — the one-level failure-link
construction loses the run of the automaton after the match at position 2. -/
theorem parseText_babab_incomplete :
    (addStringSet {} [syms "a", syms "bab"]).1 = none ∧
    ((syms "babab").take 5).drop 2 = syms "bab" ∧
    parseText trieAB (syms "babab") =
      [{ keyword := syms "a", id := 0, start := 1, endPos := 1 },
       { keyword := syms "bab", id := 1, start := 0, endPos := 2 },
       { keyword := syms "a", id := 0, start := 3, endPos := 3 }] ∧
    (∀ r ∈ parseText trieAB (syms "babab"),
      ¬(r.keyword = syms "bab" ∧ r.endPos = 4)) := by
  decide

/-! ### C2: the computed failure link is not the longest proper suffix -/

/-- C2 (failing input): in the trie of {"a", "bab"}, the node spelling "bab"
(arena index 4) has failure link 0 (the root), although the longest proper
suffix of "bab" existing as a trie path is "b" (arena index 2): the code
only inspects the children of the parent's failure link and never follows
the chain further, contrary to the specified construction. -/
theorem failure_link_not_longest_suffix :
    lookup trieAB (syms "bab") = some 4 ∧
    path trieAB 4 = syms "bab" ∧
    (getNode trieAB 4).failure = 0 ∧
    lookup trieAB (syms "b") = some 2 ∧
    path trieAB 2 = syms "b" ∧
    specFailure trieAB 4 = some 2 ∧
    (2 : Nat) ≠ 0 := by
  decide

end miscco

namespace keywordTrie

/-! ### C6: setCaseSensitivity after insertion -/

/-- C6 (counterexample): on a trie that already holds the keyword "her",
`setCaseSensitivity(true)` does NOT fail, and the failing call
`setCaseSensitivity(false)` has already changed the stored flag from `true`
to `false` when it throws — refuting both halves of the claim. -/
theorem setCaseSensitivity_not_guarded :
    (addString ({} : basic_trie) (miscco.syms "her") false).1 = none ∧
    trieHer.keywords ≠ [] ∧
    trieHer.caseSensitive = true ∧
    (setCaseSensitivity trieHer true).1 = none ∧
    (setCaseSensitivity trieHer false).1 = some miscco.Err.InvalidState ∧
    (setCaseSensitivity trieHer false).2.caseSensitive = false := by
  decide

/-- C6 (amended): `setCaseSensitivity(flag)` always stores the new flag
(even when it subsequently throws), and it throws `InvalidStateError`
exactly when the new flag is `false` and at least one keyword exists. -/
theorem setCaseSensitivity_spec :
    ∀ (t : basic_trie) (flag : Bool),
      (setCaseSensitivity t flag).2 = { t with caseSensitive := flag } ∧
      ((setCaseSensitivity t flag).1 = some miscco.Err.InvalidState ↔
        flag = false ∧ t.keywords ≠ []) := by
  intro t flag
  unfold setCaseSensitivity
  by_cases h : flag = false ∧ t.keywords ≠ []
  · simp [h]
  · simp only [h, if_neg h, if_false]
    simp [h]

end keywordTrie
